import Mathlib

/-!
Verification of the planning/execution/control core of the
ai-market-intelligence-agent repository, as a shallow embedding in Lean.

The embedding follows the Python source:
  app/planning/task_graph.py       (TaskGraph)
  app/planning/planning_engine.py  (PlanningEngine)
  app/agents/critic_agent.py       (CriticAgent.evaluate, post-parse part)
  app/agents/executor_agent.py     (ExecutorAgent.run_plan)
  app/agents/self_reflection.py    (SelfReflection.should_continue_iterating)
  app/agents/autonomous_loop.py    (AutonomousLoop.run)

Python specifics that the embedding makes explicit:
  - in-place mutation becomes explicit state passing (a function returns the
    updated value);
  - machine floats used for scores and times are modelled as rationals;
  - `raise` / uncaught exceptions become `Except.error`;
  - external collaborators (the LLM client, the decomposer, worker agents,
    the memory/vector store, wall-clock time) are parameters of the
    functions that call them, since the repository treats them as opaque
    interfaces.
-/

/-- TaskStatus from app/agents/schemas.py. -/
inductive TaskStatus where
  | pending
  | in_progress
  | completed
  | failed
deriving DecidableEq, Repr

/-- The `.value` string of a TaskStatus member. -/
def TaskStatus.value : TaskStatus → String
  | .pending => "pending"
  | .in_progress => "in_progress"
  | .completed => "completed"
  | .failed => "failed"

/-- AgentRole from app/agents/schemas.py. -/
inductive AgentRole where
  | researcher
  | market_analyst
  | evaluator
  | idea_generator
  | planner
  | executor
  | critic
deriving DecidableEq, Repr

/-- The `.value` string of an AgentRole member. -/
def AgentRole.value : AgentRole → String
  | .researcher => "researcher"
  | .market_analyst => "market_analyst"
  | .evaluator => "evaluator"
  | .idea_generator => "idea_generator"
  | .planner => "planner"
  | .executor => "executor"
  | .critic => "critic"

/-- TaskNode from app/agents/schemas.py.  The opaque `input_data` payload is
modelled as a string association list; `result` as an optional string. -/
structure TaskNode where
  task_id : String
  description : String
  task_type : String
  dependencies : List String
  agent_role : AgentRole
  input_data : List (String × String)
  status : TaskStatus := .pending
  result : Option String := none
  error : Option String := none
deriving DecidableEq, Repr

/-- The graph's `self.tasks` list.  `task_map` is derived from it
(see `task_map_get`). -/
structure TaskGraph where
  tasks : List TaskNode
deriving DecidableEq, Repr

/-- `self.task_map.get(id)`: the dict comprehension
`{task.task_id: task for task in tasks}` keeps, for each id, the LAST node
with that id (later entries overwrite earlier ones). -/
def task_map_get (tasks : List TaskNode) (id : String) : Option TaskNode :=
  tasks.reverse.find? (fun t => t.task_id == id)

/-- Whether `d` is a key of `task_map` (`d in self.task_map`). -/
def isKeyB (tasks : List TaskNode) (d : String) : Bool :=
  (tasks.map (fun t => t.task_id)).contains d

/-- Propositional form of `isKeyB`. -/
def isKeyP (tasks : List TaskNode) (d : String) : Prop :=
  d ∈ tasks.map (fun t => t.task_id)

/-- Iteration order of `self.task_map.keys()`: each id once, in order of
first insertion. -/
def keysAux (seen : List String) : List String → List String
  | [] => []
  | x :: xs => if x ∈ seen then keysAux seen xs else x :: keysAux (x :: seen) xs

/-- The keys of `self.task_map`, in dict iteration order. -/
def graphKeys (tasks : List TaskNode) : List String :=
  keysAux [] (tasks.map (fun t => t.task_id))

/-- The adjacency list built by both `_validate_dag` and
`get_execution_order`:
`for task in tasks: for dep_id in task.dependencies: if dep_id in task_map:
graph[dep_id].append(task.task_id)`.
Entry `d` therefore lists, in task order and with multiplicity, the id of
every task having `d` among its dependencies; ids outside the map get no
entry (`graph.get(node, [])` yields `[]`). -/
def adjacency (tasks : List TaskNode) (d : String) : List String :=
  if isKeyB tasks d then
    tasks.flatMap (fun t => (t.dependencies.filter (fun x => x == d)).map (fun _ => t.task_id))
  else []

/-- The two mutable sets of `_validate_dag`: `visited` and `rec_stack`. -/
structure DfsState where
  visited : List String
  stack : List String
deriving DecidableEq, Repr

/-- The neighbor loop of `has_cycle`: for each neighbor, if unvisited then
recurse (`visit`), else a back-edge into the recursion stack is a cycle.
`visit` is the recursive visit function, passed as an argument. -/
def dfsScan (visit : String → DfsState → Bool × DfsState) :
    List String → DfsState → Bool × DfsState
  | [], s => (false, s)
  | n :: ns, s =>
    if n ∈ s.visited then
      if n ∈ s.stack then (true, s) else dfsScan visit ns s
    else
      match visit n s with
      | (true, s2) => (true, s2)
      | (false, s2) => dfsScan visit ns s2

/-- `has_cycle(node)` of `_validate_dag`: mark the node visited and on the
recursion stack, scan its neighbors, then pop it from the recursion stack.
The recursion is driven by fuel; the caller supplies enough fuel for the
fuel-exhaustion branch to be unreachable (proved below). -/
def dfsVisit (adj : String → List String) : Nat → String → DfsState → Bool × DfsState
  | 0, _, s => (true, s)
  | fuel + 1, v, s =>
    let s1 : DfsState := ⟨v :: s.visited, v :: s.stack⟩
    match dfsScan (dfsVisit adj fuel) (adj v) s1 with
    | (true, s2) => (true, s2)
    | (false, s2) => (false, ⟨s2.visited, s2.stack.erase v⟩)

/-- The outer loop of `_validate_dag`: run `has_cycle` from every not yet
visited key; the first detection reports the start id of that search
(the id named in the raised ValueError). -/
def dfsFind (adj : String → List String) (fuel : Nat) :
    List String → DfsState → Option String
  | [], _ => none
  | v :: vs, s =>
    if v ∈ s.visited then dfsFind adj fuel vs s
    else
      match dfsVisit adj fuel v s with
      | (true, _) => some v
      | (false, s2) => dfsFind adj fuel vs s2

/-- `_validate_dag` as a cycle test: the id reported by the DFS, if any. -/
def validateDag (tasks : List TaskNode) : Option String :=
  dfsFind (adjacency tasks) ((graphKeys tasks).length + 1) (graphKeys tasks) ⟨[], []⟩

/-- Whether construction would raise "Cycle detected ...". -/
def hasCycleB (tasks : List TaskNode) : Bool :=
  (validateDag tasks).isSome

/-- `TaskGraph.__init__`: store the tasks and run `_validate_dag`, which
raises ValueError on a detected cycle. -/
def TaskGraph.make (tasks : List TaskNode) : Except String TaskGraph :=
  match validateDag tasks with
  | some v => Except.error ("Cycle detected in task graph involving task: " ++ v)
  | none => Except.ok ⟨tasks⟩

/-- The dependency relation of a task list: `depEdge tasks a b` holds when
some task with id `b` lists `a` among its dependencies.  This is the
spec-level "dependency relation" (edges point from a dependency to its
dependent, the direction in which the code builds `graph`). -/
def depEdge (tasks : List TaskNode) (a b : String) : Prop :=
  ∃ t ∈ tasks, t.task_id = b ∧ a ∈ t.dependencies

/-- The spec-level "the dependency relation contains a cycle". -/
def hasCycleProp (tasks : List TaskNode) : Prop :=
  ∃ x, Relation.TransGen (depEdge tasks) x x

/-- `TaskGraph.get_task`. -/
def TaskGraph.get_task (g : TaskGraph) (id : String) : Option TaskNode :=
  task_map_get g.tasks id

/-- The field updates done by `update_task_status` on the found node:
`task.status = status; if result is not None: task.result = result;
if error: task.error = error` (an empty error string is falsy). -/
def applyStatusUpdate (status : TaskStatus) (result : Option String)
    (error : Option String) (t : TaskNode) : TaskNode :=
  { t with
    status := status
    result := if result.isSome then result else t.result
    error := if error = none ∨ error = some "" then t.error else error }

/-- Replace the first node matching `id` using `f`; helper for the
mutation of the node object held in `task_map`. -/
def updateFirstMatch (id : String) (f : TaskNode → TaskNode) :
    List TaskNode → List TaskNode
  | [] => []
  | t :: ts => if t.task_id == id then f t :: ts else t :: updateFirstMatch id f ts

/-- `TaskGraph.update_task_status`: look the id up in `task_map`; when
absent, do nothing; when present, mutate that node (the LAST node with the
id, since the dict keeps the last).  Mutation of the shared node object is
rendered as rebuilding the task list with that one node updated. -/
def TaskGraph.update_task_status (g : TaskGraph) (id : String)
    (status : TaskStatus) (result : Option String) (error : Option String) :
    TaskGraph :=
  match task_map_get g.tasks id with
  | none => g
  | some _ =>
    ⟨(updateFirstMatch id (applyStatusUpdate status result error) g.tasks.reverse).reverse⟩

/-- `TaskGraph.is_complete`. -/
def TaskGraph.is_complete (g : TaskGraph) : Bool :=
  g.tasks.all (fun t => t.status == .completed || t.status == .failed)

/-- `TaskGraph.get_failed_tasks`. -/
def TaskGraph.get_failed_tasks (g : TaskGraph) : List TaskNode :=
  g.tasks.filter (fun t => t.status == .failed)

/-- `TaskGraph.get_completed_tasks`. -/
def TaskGraph.get_completed_tasks (g : TaskGraph) : List TaskNode :=
  g.tasks.filter (fun t => t.status == .completed)

/-- The `in_degree` dict of `get_execution_order`, as an association list in
key order.  Its counter for key `k` ends at the number of `(task, dep)`
pairs with `task.task_id = k` and `dep` a key
(`in_degree[task.task_id] += 1` for every dependency found in the map). -/
def inCount (tasks : List TaskNode) (k : String) : Nat :=
  ((tasks.filter (fun t => t.task_id == k)).map
    (fun t => (t.dependencies.filter (fun d => isKeyB tasks d)).length)).sum

/-- Initial `in_degree` of `get_execution_order`. -/
def initDeg (tasks : List TaskNode) : List (String × Int) :=
  (graphKeys tasks).map (fun k => (k, (inCount tasks k : Int)))

/-- `in_degree[b]` lookup. -/
def degLookup (d : List (String × Int)) (b : String) : Option Int :=
  (d.find? (fun p => p.1 == b)).map (fun p => p.2)

/-- `in_degree[b] -= 1` (first matching entry; dict keys are unique). -/
def degDec : List (String × Int) → String → List (String × Int)
  | [], _ => []
  | p :: ps, b => if p.1 == b then (p.1, p.2 - 1) :: ps else p :: degDec ps b

/-- One dependent update in the inner loop of `get_execution_order`:
`in_degree[dependent_id] -= 1; if in_degree[dependent_id] == 0:
queue.append(dependent_id)`.  The id is always a key; the `none` branch is
unreachable (Python would raise KeyError there). -/
def kahnEdge (st : List (String × Int) × List String) (b : String) :
    List (String × Int) × List String :=
  match degLookup st.1 b with
  | none => st
  | some v =>
    let d2 := degDec st.1 b
    if v - 1 = 0 then (d2, st.2 ++ [b]) else (d2, st.2)

/-- Popping one id of the current level: process all its dependents. -/
def kahnNode (adj : String → List String)
    (st : List (String × Int) × List String) (x : String) :
    List (String × Int) × List String :=
  (adj x).foldl kahnEdge st

/-- One iteration of the `while queue` loop: the snapshot `level_size`
equals the whole queue, so the level is exactly the current queue and the
appends form the next queue. -/
def kahnLevelStep (adj : String → List String) (q : List String)
    (d : List (String × Int)) : List (String × Int) × List String :=
  q.foldl (kahnNode adj) (d, [])

/-- The `while queue` loop of `get_execution_order`, fuel-driven; the
caller supplies enough fuel for exhaustion to be unreachable (proved
below). -/
def kahnLoopF (adj : String → List String) :
    Nat → List (String × Int) → List String → List (List String)
  | 0, _, _ => []
  | fuel + 1, d, q =>
    match q with
    | [] => []
    | _ :: _ =>
      let r := kahnLevelStep adj q d
      q :: kahnLoopF adj fuel r.1 r.2

/-- Termination measure for the Kahn loop: total positive in-degree plus
queue length; it strictly decreases at every iteration. -/
def degWeight (d : List (String × Int)) : Nat :=
  (d.map (fun p => p.2.toNat)).sum

/-- Measure of a Kahn state. -/
def kahnMeasure (d : List (String × Int)) (q : List String) : Nat :=
  degWeight d + q.length

/-- Initial queue: keys of in-degree zero, in key order. -/
def kahnQueue0 (tasks : List TaskNode) : List String :=
  ((initDeg tasks).filter (fun p => p.2 == 0)).map (fun p => p.1)

/-- The id levels computed by `get_execution_order`. -/
def kahnLevels (tasks : List TaskNode) : List (List String) :=
  kahnLoopF (adjacency tasks) (kahnMeasure (initDeg tasks) (kahnQueue0 tasks) + 1)
    (initDeg tasks) (kahnQueue0 tasks)

/-- `self.task_map[task_id]` on a known key (total lookup with an inert
default; the default is never reached for queue ids). -/
def theTask (tasks : List TaskNode) (id : String) : TaskNode :=
  (task_map_get tasks id).getD ⟨"", "", "", [], .researcher, [], .pending, none, none⟩

/-- `TaskGraph.get_execution_order`: Kahn level order, each id resolved
through `task_map`. -/
def TaskGraph.get_execution_order (g : TaskGraph) : List (List TaskNode) :=
  (kahnLevels g.tasks).map (fun lvl => lvl.map (fun id => theTask g.tasks id))

/-- A Python value as carried in context/metadata dicts (only the shapes the
planning code builds are needed). -/
inductive CVal where
  | s (v : String)
  | l (v : List CVal)
  | m (v : List (String × CVal))

/-- A Python dict used as planning context / plan metadata. -/
def Ctx := List (String × CVal)

/-- `base.update(extra)` on dicts: existing keys keep their position and take
the new value, new keys are appended in order. -/
def dictUpdate (base extra : Ctx) : Ctx :=
  base.map (fun p =>
    match extra.find? (fun q => q.1 == p.1) with
    | some q => (p.1, q.2)
    | none => p) ++
  extra.filter (fun q => !((base.map (fun p => p.1)).contains q.1))

/-- Plan from app/agents/schemas.py; `created_at` is an opaque timestamp. -/
structure Plan where
  plan_id : String
  goal : String
  tasks : List TaskNode
  created_at : Int
  version : Int := 1
  metadata : Ctx := []

/-- Critique from app/agents/schemas.py; float scores become rationals. -/
structure Critique where
  completeness_score : ℚ
  evidence_strength_score : ℚ
  coherence_score : ℚ
  actionability_score : ℚ
  overall_score : ℚ
  weaknesses : List String
  missing_components : List String
  improvement_suggestions : List String
  should_iterate : Bool
  confidence : ℚ
  timestamp : Int
deriving DecidableEq

/-- `PlanningEngine.create_plan`.  The goal decomposition is delegated to
the external LLM-backed `GoalDecomposer`, passed here as the function
`decompose`; `genId` stands for the timestamp/uuid id generated when
`plan_id is None`, and `now` for `datetime.now()`. -/
def PlanningEngine.create_plan (decompose : String → Option Ctx → List TaskNode)
    (genId : String) (now : Int) (goal : String) (context : Option Ctx)
    (plan_id : Option String) (version : Int) : Plan :=
  let pid := plan_id.getD genId
  let tasks := decompose goal context
  { plan_id := pid
    goal := goal
    tasks := tasks
    created_at := now
    version := version
    metadata := match context with | none => [] | some c => c }

/-- `PlanningEngine.refine_plan`.  Builds the refinement context from the
original plan and the critique, then calls `create_plan` with
version `original.version + 1` and id `original.plan_id + "_v{version}"`.
The pair returned is (the original plan as left after the call, the refined
plan): the method contains no mutating statement, so the left component is
the unchanged input. -/
def PlanningEngine.refine_plan (decompose : String → Option Ctx → List TaskNode)
    (genId : String) (now : Int) (original_plan : Plan) (critique : Critique)
    (context : Option Ctx) : Plan × Plan :=
  let refinement_context : Ctx :=
    [("original_plan", CVal.m
        [("goal", CVal.s original_plan.goal),
         ("tasks", CVal.l (original_plan.tasks.map (fun t => CVal.s t.description)))]),
     ("critique", CVal.m
        [("weaknesses", CVal.l (critique.weaknesses.map CVal.s)),
         ("missing_components", CVal.l (critique.missing_components.map CVal.s)),
         ("improvement_suggestions", CVal.l (critique.improvement_suggestions.map CVal.s))])]
  let rc2 := match context with
    | none => refinement_context
    | some c => if c.isEmpty then refinement_context else dictUpdate refinement_context c
  let refined := PlanningEngine.create_plan decompose genId now original_plan.goal
    (some rc2)
    (some (original_plan.plan_id ++ "_v" ++ toString (original_plan.version + 1)))
    (original_plan.version + 1)
  (original_plan, refined)

/-- The dangling-dependency message of `validate_plan`. -/
def orphanMsg (taskId depId : String) : String :=
  "Task " ++ taskId ++ " depends on non-existent task " ++ depId

/-- `PlanningEngine.validate_plan`: collect an issue for an empty goal and
an empty task list; then construct the TaskGraph, and on ValueError append
its message and return False EARLY; otherwise append one issue per
dependency id that is not a task id, and return (no issues, issues). -/
def PlanningEngine.validate_plan (plan : Plan) : Bool × List String :=
  let issues1 : List String := if plan.goal == "" then ["Plan has no goal"] else []
  let issues2 := issues1 ++ (if plan.tasks.isEmpty then ["Plan has no tasks"] else [])
  match TaskGraph.make plan.tasks with
  | .error e => (false, issues2 ++ ["Task graph validation failed: " ++ e])
  | .ok _ =>
    let orphans := plan.tasks.flatMap (fun t =>
      (t.dependencies.filter (fun d => !isKeyB plan.tasks d)).map
        (fun d => orphanMsg t.task_id d))
    let issues3 := issues2 ++ orphans
    (issues3.isEmpty, issues3)

/-- The dict parsed from the evaluator LLM response in
`CriticAgent.evaluate` (either `json.loads` output or the `_parse_fallback`
dict); a `none` field is an absent key. -/
structure ParsedEval where
  completeness_score : Option ℚ := none
  evidence_strength_score : Option ℚ := none
  coherence_score : Option ℚ := none
  actionability_score : Option ℚ := none
  overall_score : Option ℚ := none
  weaknesses : Option (List String) := none
  missing_components : Option (List String) := none
  improvement_suggestions : Option (List String) := none
  should_iterate : Option Bool := none
  confidence : Option ℚ := none

/-- The post-parse part of `CriticAgent.evaluate` (lines building the
Critique from `parsed`): compute the overall score with the weighted
formula when the evaluator omitted it, and fill every missing field with
its default. -/
def critiqueFromParsed (parsed : ParsedEval) (now : Int) : Critique :=
  let overall : ℚ := match parsed.overall_score with
    | some v => v
    | none =>
      parsed.completeness_score.getD (1/2) * (3/10) +
      parsed.evidence_strength_score.getD (1/2) * (3/10) +
      parsed.coherence_score.getD (1/2) * (2/10) +
      parsed.actionability_score.getD (1/2) * (2/10)
  { completeness_score := parsed.completeness_score.getD (1/2)
    evidence_strength_score := parsed.evidence_strength_score.getD (1/2)
    coherence_score := parsed.coherence_score.getD (1/2)
    actionability_score := parsed.actionability_score.getD (1/2)
    overall_score := overall
    weaknesses := parsed.weaknesses.getD []
    missing_components := parsed.missing_components.getD []
    improvement_suggestions := parsed.improvement_suggestions.getD []
    should_iterate := parsed.should_iterate.getD true
    confidence := parsed.confidence.getD (7/10)
    timestamp := now }

/-- The `_parse_fallback` dict of CriticAgent. -/
def parseFallback : ParsedEval :=
  { completeness_score := some (1/2)
    evidence_strength_score := some (1/2)
    coherence_score := some (1/2)
    actionability_score := some (1/2)
    overall_score := some (1/2)
    weaknesses := some ["Unable to parse evaluation"]
    missing_components := some []
    improvement_suggestions := some ["Improve result formatting"]
    should_iterate := some true
    confidence := some (3/10) }

/-- `SelfReflection.should_continue_iterating`. -/
def should_continue_iterating (critique : Critique) (iteration_number : Nat)
    (max_iterations : Nat) (threshold : ℚ) : Bool :=
  if iteration_number ≥ max_iterations then false
  else if critique.overall_score ≥ threshold && !critique.should_iterate then false
  else if critique.should_iterate then true
  else if critique.overall_score < threshold then true
  else false

/-- What a worker agent hands back for one task node: the status/result/error
of the returned AgentTask.  `agent.create_task` plus `agent.execute` are
LLM-backed; `BaseAgent.execute` catches its own exceptions, so a worker call
always returns. -/
structure WorkerReply where
  status : TaskStatus
  result : Option String
  error : Option String
deriving DecidableEq, Repr

/-- The roles registered in `ExecutorAgent.agent_map`. -/
def agentAvailable : AgentRole → Bool
  | .researcher => true
  | .market_analyst => true
  | .idea_generator => true
  | .evaluator => true
  | _ => false

/-- One entry of `execution_log` (the success entry carries no error key,
rendered as `error = none`). -/
structure LogEntry where
  task_id : String
  description : String
  status : String
  level : Nat
  error : Option String
deriving DecidableEq, Repr

/-- Dispatch of one task node inside a level (`ExecutorAgent.run_plan` inner
loop body): look the worker up by role, raising the unregistered-role
ValueError into the local except branch; otherwise run the worker and push
its status/result/error into the graph.  `work` is the worker oracle. -/
def runOneNode (work : TaskNode → WorkerReply) (level : Nat)
    (st : TaskGraph × List LogEntry) (node : TaskNode) : TaskGraph × List LogEntry :=
  if agentAvailable node.agent_role then
    let reply := work node
    let g2 := st.1.update_task_status node.task_id reply.status reply.result reply.error
    (g2, st.2 ++ [⟨node.task_id, node.description, reply.status.value, level, none⟩])
  else
    let e := "No agent available for role: " ++ node.agent_role.value
    let g2 := st.1.update_task_status node.task_id .failed none (some e)
    (g2, st.2 ++ [⟨node.task_id, node.description, "failed", level, some e⟩])

/-- The observable outcome dict of `ExecutorAgent.run_plan`; the final
graph is exposed as well so node statuses can be stated (in Python it is
the local `graph` object). -/
structure RunPlanOutcome where
  plan_id : String
  goal : String
  execution_log : List LogEntry
  completed_tasks : Nat
  failed_tasks : Nat
  is_complete : Bool
  final_results : List (String × Option String)
  final_graph : TaskGraph
deriving DecidableEq, Repr

/-- `ExecutorAgent.run_plan`: build the graph (a cycle ValueError
propagates), compute the level order once, then dispatch EVERY node of
every level in order through `runOneNode` and collect the outcome dict.
The per-level `results` sub-dicts are subsumed by `execution_log` and the
final graph and are not replicated. -/
def ExecutorAgent.run_plan (work : TaskNode → WorkerReply) (plan : Plan) :
    Except String RunPlanOutcome :=
  match TaskGraph.make plan.tasks with
  | .error e => .error e
  | .ok g0 =>
    let order := g0.get_execution_order
    let fin := order.enum.foldl
      (fun st lv => lv.2.foldl (runOneNode work lv.1) st) (g0, [])
    let completed := fin.1.get_completed_tasks
    let failed := fin.1.get_failed_tasks
    .ok
      { plan_id := plan.plan_id
        goal := plan.goal
        execution_log := fin.2
        completed_tasks := completed.length
        failed_tasks := failed.length
        is_complete := fin.1.is_complete
        final_results := completed.map (fun t => (t.task_id, t.result))
        final_graph := fin.1 }

/-- The value bound to `final_result` in the loop: `None` initially, then
either the last value of `final_results` (which may itself be a missing
task result) or the whole execution dict. -/
inductive FinalRes where
  | noneV
  | val (v : Option String)
  | outcome (o : RunPlanOutcome)

/-- Python truthiness of `final_result` (None and the empty string are
falsy; the execution dict is a non-empty dict, hence truthy). -/
def FinalRes.truthy : FinalRes → Bool
  | .noneV => false
  | .val v => match v with | none => false | some s => !(s == "")
  | .outcome _ => true

/-- The dict returned by `SelfReflection.reflect`. -/
structure Reflection where
  experience_id : String
  lessons_learned : List String
  success : Bool
  reflection_summary : String

/-- IterationResult from app/agents/schemas.py (the unread timestamp and
token/cost fields are omitted). -/
structure IterationResult where
  iteration_number : Nat
  plan : Plan
  execution_result : RunPlanOutcome
  critique : Critique
  execution_time : ℚ

/-- AutonomousExecutionResult from app/agents/schemas.py. -/
structure AutonomousExecutionResult where
  execution_id : String
  goal : String
  iterations : List IterationResult
  final_result : FinalRes
  total_iterations : Nat
  total_execution_time : ℚ
  total_cost : ℚ
  total_tokens : Int
  status : TaskStatus
  termination_reason : String

/-- Constructor arguments of AutonomousLoop (`max_iterations`,
`score_threshold` and the three optional guards). -/
structure LoopCfg where
  max_iterations : Nat
  score_threshold : ℚ
  max_cost : Option ℚ
  max_tokens : Option Int
  timeout_seconds : Option ℚ

/-- The external collaborators `run` calls, over an opaque world state σ:
memory, planner, executor, critic, reflection and the experience log.  Each
can raise (`Except.error`), faithful to Python where any of these calls may
throw. -/
structure LoopWorld (σ : Type) where
  pushShortTerm : String → String → σ → Except String σ
  retrieveRelevant : String → Nat → σ → Except String (Option String × σ)
  createPlan : String → Ctx → σ → Except String (Option Plan × σ)
  refinePlan : Plan → Critique → Ctx → σ → Except String (Option Plan × σ)
  runPlan : Plan → σ → Except String (RunPlanOutcome × σ)
  getRecentContext : σ → Except String (String × σ)
  evaluateResult : FinalRes → String → String → σ → Except String (Critique × σ)
  reflect : String → Plan → FinalRes → Critique → ℚ → σ → Except String (Reflection × σ)
  logIteration : σ → Except String σ
  logExecution : σ → Except String σ
  storeExperience : σ → Except String σ

/-- `if self.timeout_seconds and (time.time() - start_time) > self.timeout_seconds`:
`None` and `0` are falsy, so a zero timeout disables the check. -/
def timeoutHit : Option ℚ → ℚ → Bool
  | none, _ => false
  | some v, elapsed => if v = 0 then false else decide (elapsed > v)

/-- `if self.max_cost and self.total_cost >= self.max_cost` (0 falsy). -/
def costGuardHit : Option ℚ → ℚ → Bool
  | none, _ => false
  | some v, total => if v = 0 then false else decide (total ≥ v)

/-- `if self.max_tokens and self.total_tokens >= self.max_tokens` (0 falsy). -/
def tokenGuardHit : Option Int → Int → Bool
  | none, _ => false
  | some v, total => if v = 0 then false else decide (total ≥ v)

/-- The loop-local mutable state of `run`: the world, the wall-clock call
counter, and the variables `iterations`, `current_plan`, `final_result`,
the last `reflection` dict and `termination_reason`. -/
structure IterState (σ : Type) where
  world : σ
  tclock : Nat
  iterations : List IterationResult
  current_plan : Option Plan
  final_result : FinalRes
  last_reflection : Option Reflection
  reason : String

/-- What an exception raised inside the `try` block carries for the except
branch at the bottom of `run` (which still reads `iterations`,
`final_result` and the clock). -/
structure CaughtErr (σ : Type) where
  msg : String
  world : σ
  tclock : Nat
  iterations : List IterationResult
  final_result : FinalRes

/-- Raise a collaborator failure together with the loop state at that
point. -/
def raiseAt (st : IterState σ) (e : String) : Except (CaughtErr σ) α :=
  .error ⟨e, st.world, st.tclock, st.iterations, st.final_result⟩

/-- The Planning step of one iteration (lines 118-141 of run): iteration 1
creates a plan, later iterations refine the previous one using the last
critique (a Critique object is always truthy).  A planner returning None
makes the subsequent length/version access raise AttributeError, so the
None case raises rather than reaching the planning_failed check. -/
def planStep (w : LoopWorld σ) (goal : String) (ctx : Ctx) (iterNum : Nat)
    (st : IterState σ) : Except (CaughtErr σ) (IterState σ) :=
  if iterNum = 1 then
    match w.createPlan goal ctx st.world with
    | .error e => raiseAt st e
    | .ok (none, w2) =>
      raiseAt { st with world := w2 }
        "AttributeError: NoneType object has no attribute tasks"
    | .ok (some p, w2) =>
      match w.pushShortTerm ("Created plan with " ++ toString p.tasks.length ++ " tasks")
          "action" w2 with
      | .error e => raiseAt { st with world := w2 } e
      | .ok w3 => .ok { st with world := w3, current_plan := some p }
  else
    match st.iterations.getLast? with
    | none => raiseAt st "IndexError: list index out of range"
    | some last =>
      match st.current_plan with
      | none => raiseAt st "AttributeError: NoneType object has no attribute goal"
      | some cp =>
        match w.refinePlan cp last.critique ctx st.world with
        | .error e => raiseAt st e
        | .ok (none, w2) =>
          raiseAt { st with world := w2 }
            "AttributeError: NoneType object has no attribute version"
        | .ok (some p, w2) =>
          match w.pushShortTerm ("Refined plan (v" ++ toString p.version ++ ")")
              "reasoning" w2 with
          | .error e => raiseAt { st with world := w2 } e
          | .ok w3 => .ok { st with world := w3, current_plan := some p }

/-- The Execute/Critique/Reflect steps of one iteration (lines 149-206 of
run), up to and including the iteration log append; returns the updated
state and the critique. -/
def execStep (w : LoopWorld σ) (timeFn : Nat → ℚ) (goal : String) (iterNum : Nat)
    (tIter : ℚ) (plan : Plan) (st : IterState σ) :
    Except (CaughtErr σ) (IterState σ × Critique) :=
  match w.runPlan plan st.world with
  | .error e => raiseAt st e
  | .ok (outcome, w1) =>
    let tEnd := timeFn st.tclock
    let st1 : IterState σ := { st with world := w1, tclock := st.tclock + 1 }
    let executionTime := tEnd - tIter
    let fr : FinalRes := match outcome.final_results.getLast? with
      | some pr => FinalRes.val pr.2
      | none => FinalRes.outcome outcome
    let st2 : IterState σ := { st1 with final_result := fr }
    match w.pushShortTerm
        ("Execution completed: " ++ toString outcome.completed_tasks ++ " tasks")
        "result" st2.world with
    | .error e => raiseAt st2 e
    | .ok w2 =>
      let st3 : IterState σ := { st2 with world := w2 }
      match w.getRecentContext st3.world with
      | .error e => raiseAt st3 e
      | .ok (rctx, w3) =>
        match w.evaluateResult fr goal rctx w3 with
        | .error e => raiseAt { st3 with world := w3 } e
        | .ok (critique, w4) =>
          let st4 : IterState σ := { st3 with world := w4 }
          match w.reflect goal plan fr critique executionTime st4.world with
          | .error e => raiseAt st4 e
          | .ok (refl, w5) =>
            let st5 : IterState σ := { st4 with
              world := w5
              last_reflection := some refl
              iterations := st4.iterations ++
                [⟨iterNum, plan, outcome, critique, executionTime⟩] }
            match w.logIteration st5.world with
            | .error e => raiseAt st5 e
            | .ok w6 => .ok ({ st5 with world := w6 }, critique)

/-- The body of `for iteration in range(1, max_iterations + 1)` in
`AutonomousLoop.run`, one iteration per recursive call.  `timeFn` is
`time.time()` by call index.  A non-empty `reason` in the returned state
means the loop hit `break` with that termination reason. -/
def runIters (w : LoopWorld σ) (timeFn : Nat → ℚ) (cfg : LoopCfg) (goal : String)
    (ctx : Ctx) (startTime : ℚ) :
    Nat → Nat → IterState σ → Except (CaughtErr σ) (IterState σ)
  | 0, _, st => .ok st
  | rem + 1, iterNum, st =>
    let tChk := timeFn (st.tclock + 1)
    let tIter := timeFn st.tclock
    let st1 : IterState σ := { st with tclock := st.tclock + 2 }
    if timeoutHit cfg.timeout_seconds (tChk - startTime) then
      .ok { st1 with reason := "timeout" }
    else
      match planStep w goal ctx iterNum st1 with
      | .error e => .error e
      | .ok st2 =>
        match st2.current_plan with
        | none => .ok { st2 with reason := "planning_failed" }
        | some plan =>
          match execStep w timeFn goal iterNum tIter plan st2 with
          | .error e => .error e
          | .ok (st3, critique) =>
            if !(should_continue_iterating critique iterNum cfg.max_iterations
                cfg.score_threshold) then
              if critique.overall_score ≥ cfg.score_threshold then
                .ok { st3 with reason := "threshold_met" }
              else
                .ok { st3 with reason := "max_iterations" }
            else if costGuardHit cfg.max_cost 0 then
              .ok { st3 with reason := "max_cost" }
            else if tokenGuardHit cfg.max_tokens 0 then
              .ok { st3 with reason := "max_tokens" }
            else
              runIters w timeFn cfg goal ctx startTime rem (iterNum + 1) st3

/-- The part of `run` inside the `try` block: the iteration loop, the
default `max_iterations` reason, the final result record, and the two
post-loop persistence calls. -/
def runBody (w : LoopWorld σ) (timeFn : Nat → ℚ) (cfg : LoopCfg)
    (execId : String) (goal : String) (ctx : Ctx) (startTime : ℚ) (s0 : σ) :
    Except (CaughtErr σ) AutonomousExecutionResult :=
  match runIters w timeFn cfg goal ctx startTime cfg.max_iterations 1
      ⟨s0, 1, [], none, FinalRes.noneV, none, ""⟩ with
  | .error e => .error e
  | .ok st =>
    let reason := if st.reason == "" then "max_iterations" else st.reason
    let tEnd := timeFn st.tclock
    let result : AutonomousExecutionResult :=
      { execution_id := execId
        goal := goal
        iterations := st.iterations
        final_result := st.final_result
        total_iterations := st.iterations.length
        total_execution_time := tEnd - startTime
        total_cost := 0
        total_tokens := 0
        status := if st.final_result.truthy then .completed else .failed
        termination_reason := reason }
    match w.logExecution st.world with
    | .error e => .error ⟨e, st.world, st.tclock + 1, st.iterations, st.final_result⟩
    | .ok w2 =>
      match w.storeExperience w2 with
      | .error e => .error ⟨e, w2, st.tclock + 1, st.iterations, st.final_result⟩
      | .ok _ => .ok result

/-- The Failed result built in the `except` branch of `run`. -/
def exceptResult (timeFn : Nat → ℚ) (execId : String) (goal : String)
    (startTime : ℚ) (e : CaughtErr σ) : AutonomousExecutionResult :=
  { execution_id := execId
    goal := goal
    iterations := e.iterations
    final_result := e.final_result
    total_iterations := e.iterations.length
    total_execution_time := timeFn e.tclock - startTime
    total_cost := 0
    total_tokens := 0
    status := .failed
    termination_reason := "error: " ++ e.msg }

/-- The context dict `run` assembles before the loop: a copy of
`initial_context` (or `{}`), updated with the retrieved past experiences
when the retrieval returned a truthy (non-empty) string. -/
def mkCtx (initial_context : Option Ctx) (rel : Option String) : Ctx :=
  let base := initial_context.getD []
  match rel with
  | some s => if s == "" then base else dictUpdate base [("past_experiences", CVal.s s)]
  | none => base

/-- `AutonomousLoop.run`.  `execId` stands for the generated execution id,
`timeFn` for `time.time()` by call index.  The goal logging and the
retrieval of past experiences happen BEFORE the `try` block, so a failure
in either propagates out of `run` (the `Except.error` of the result);
everything after is wrapped by the try/except that converts any exception
into a Failed result with reason `error: <message>`. -/
def AutonomousLoop.run (w : LoopWorld σ) (timeFn : Nat → ℚ) (cfg : LoopCfg)
    (execId : String) (goal : String) (initial_context : Option Ctx) (s0 : σ) :
    Except String AutonomousExecutionResult :=
  let startTime := timeFn 0
  match w.pushShortTerm ("Goal: " ++ goal) "action" s0 with
  | .error e => .error e
  | .ok s1 =>
    match w.retrieveRelevant goal 3 s1 with
    | .error e => .error e
    | .ok (rel, s2) =>
      match runBody w timeFn cfg execId goal (mkCtx initial_context rel) startTime s2 with
      | .ok r => .ok r
      | .error e => .ok (exceptResult timeFn execId goal startTime e)

/-- The id-uniqueness constraint of the data model ("identity (unique id)"). -/
def NodupIds (tasks : List TaskNode) : Prop :=
  (tasks.map (fun t => t.task_id)).Nodup

/-- A concrete two-node plan (Y depends on X) for instantiating the
executor theorems. -/
def w3plan : Plan :=
  ⟨"wp", "g", [⟨"X", "", "", [], .researcher, [], .pending, none, none⟩,
    ⟨"Y", "", "", ["X"], .researcher, [], .pending, none, none⟩], 0, 1, []⟩

/-- A concrete worker oracle that fails node X and completes every other
node. -/
def w3work : TaskNode → WorkerReply :=
  fun node => if node.task_id == "X" then ⟨.failed, none, some "boom"⟩
    else ⟨.completed, some "ok", none⟩

/-- A concrete one-task plan for instantiating the loop theorems. -/
def okPlan : Plan :=
  ⟨"plan1", "g", [⟨"T", "", "", [], .researcher, [], .pending, none, none⟩], 0, 1, []⟩

/-- A concrete successful execution outcome for `okPlan`. -/
def okOutcome : RunPlanOutcome :=
  { plan_id := "plan1"
    goal := "g"
    execution_log := [⟨"T", "", "completed", 0, none⟩]
    completed_tasks := 1
    failed_tasks := 0
    is_complete := true
    final_results := [("T", some "ok")]
    final_graph := ⟨[⟨"T", "", "", [], .researcher, [], .completed, some "ok", none⟩]⟩ }

/-- A concrete high-scoring critique with `should_iterate = False`. -/
def okCritique : Critique :=
  { completeness_score := 1
    evidence_strength_score := 1
    coherence_score := 1
    actionability_score := 1
    overall_score := 1
    weaknesses := []
    missing_components := []
    improvement_suggestions := []
    should_iterate := false
    confidence := 1
    timestamp := 0 }

/-- A concrete reflection record. -/
def okReflection : Reflection := ⟨"exp1", [], true, ""⟩

/-- A loop world over the trivial state in which every collaborator
succeeds: planning yields `okPlan`, execution `okOutcome`, critique
`okCritique`. -/
def okWorld : LoopWorld Unit :=
  { pushShortTerm := fun _ _ _ => .ok ()
    retrieveRelevant := fun _ _ _ => .ok (none, ())
    createPlan := fun _ _ _ => .ok (some okPlan, ())
    refinePlan := fun _ _ _ _ => .ok (some okPlan, ())
    runPlan := fun _ _ => .ok (okOutcome, ())
    getRecentContext := fun _ => .ok ("", ())
    evaluateResult := fun _ _ _ _ => .ok (okCritique, ())
    reflect := fun _ _ _ _ _ _ => .ok (okReflection, ())
    logIteration := fun _ => .ok ()
    logExecution := fun _ => .ok ()
    storeExperience := fun _ => .ok () }

/-- A concrete wall clock advancing two seconds per call. -/
def twoClock : Nat → ℚ := fun n => 2 * n

/-- `okWorld` with a memory layer whose very first `push_short_term` call
(the goal logging, before the `try` block) raises. -/
def errWorld : LoopWorld Unit :=
  { okWorld with pushShortTerm := fun _ _ _ => .error "boom" }

/-- `okWorld` with a planner that raises inside the `try` block. -/
def midErrWorld : LoopWorld Unit :=
  { okWorld with createPlan := fun _ _ _ => .error "LLM down" }

theorem isKeyB_iff (tasks : List TaskNode) (d : String) :
    isKeyB tasks d = true ↔ isKeyP tasks d := by
  simp only [isKeyB, isKeyP, List.contains]
  exact List.elem_iff

theorem mem_keysAux {seen l : List String} {x : String} :
    x ∈ keysAux seen l ↔ x ∈ l ∧ x ∉ seen := by
  induction l generalizing seen with
  | nil => simp [keysAux]
  | cons a l ih =>
    simp only [keysAux]
    by_cases ha : a ∈ seen
    · rw [if_pos ha, ih]
      simp only [List.mem_cons]
      constructor
      · rintro ⟨h1, h2⟩
        exact ⟨Or.inr h1, h2⟩
      · rintro ⟨rfl | h1, h2⟩
        · exact absurd ha h2
        · exact ⟨h1, h2⟩
    · rw [if_neg ha]
      simp only [List.mem_cons, ih]
      constructor
      · rintro (rfl | ⟨h1, h2⟩)
        · exact ⟨Or.inl rfl, ha⟩
        · exact ⟨Or.inr h1, fun hx => h2 (Or.inr hx)⟩
      · rintro ⟨rfl | h1, h2⟩
        · exact Or.inl rfl
        · by_cases hxa : x = a
          · exact Or.inl hxa
          · refine Or.inr ⟨h1, fun hx => ?_⟩
            rcases hx with h | h
            · exact hxa h
            · exact h2 h

theorem keysAux_nodup (seen l : List String) : (keysAux seen l).Nodup := by
  induction l generalizing seen with
  | nil => simp [keysAux]
  | cons a l ih =>
    by_cases ha : a ∈ seen
    · simpa [keysAux, ha] using ih seen
    · simp only [keysAux, if_neg ha]
      refine List.nodup_cons.mpr ⟨?_, ih (a :: seen)⟩
      intro hmem
      exact (mem_keysAux.mp hmem).2 (List.mem_cons_self a seen)

theorem mem_graphKeys {tasks : List TaskNode} {x : String} :
    x ∈ graphKeys tasks ↔ isKeyP tasks x := by
  simp [graphKeys, mem_keysAux, isKeyP]

theorem graphKeys_nodup (tasks : List TaskNode) : (graphKeys tasks).Nodup :=
  keysAux_nodup [] _

theorem keysAux_eq_filter {l : List String} (h : l.Nodup) (seen : List String) :
    keysAux seen l = l.filter (fun a => decide (a ∉ seen)) := by
  induction l generalizing seen with
  | nil => simp [keysAux]
  | cons a l ih =>
    rcases List.nodup_cons.mp h with ⟨hal, hl⟩
    by_cases ha : a ∈ seen
    · rw [keysAux, if_pos ha, List.filter_cons_of_neg (by simpa using ha), ih hl]
    · rw [keysAux, if_neg ha, List.filter_cons_of_pos (by simpa using ha), ih hl]
      congr 1
      apply List.filter_congr
      intro b hb
      have : ¬ b = a := fun hba => hal (hba ▸ hb)
      simp [this]

theorem graphKeys_of_nodup {tasks : List TaskNode} (h : NodupIds tasks) :
    graphKeys tasks = tasks.map (fun t => t.task_id) := by
  rw [graphKeys, keysAux_eq_filter h]
  simp

theorem mem_adjacency {tasks : List TaskNode} {a b : String} :
    b ∈ adjacency tasks a ↔ isKeyP tasks a ∧ depEdge tasks a b := by
  unfold adjacency
  by_cases hk : isKeyB tasks a
  · rw [if_pos hk]
    simp only [List.mem_flatMap, List.mem_map, List.mem_filter]
    constructor
    · rintro ⟨t, ht, ⟨d, ⟨hd, hbeq⟩, rfl⟩⟩
      rw [beq_iff_eq] at hbeq
      exact ⟨(isKeyB_iff tasks a).mp hk, t, ht, rfl, hbeq ▸ hd⟩
    · rintro ⟨_, t, ht, rfl, hd⟩
      exact ⟨t, ht, a, ⟨hd, beq_iff_eq.mpr rfl⟩, rfl⟩
  · rw [if_neg hk]
    simp only [List.not_mem_nil, false_iff, not_and]
    intro hp
    exact absurd ((isKeyB_iff tasks a).mpr hp) hk

theorem adjacency_target_key {tasks : List TaskNode} {a b : String}
    (h : b ∈ adjacency tasks a) : isKeyP tasks b := by
  rcases (mem_adjacency.mp h).2 with ⟨t, ht, rfl, _⟩
  exact List.mem_map.mpr ⟨t, ht, rfl⟩

theorem depEdge_target_key {tasks : List TaskNode} {a b : String}
    (h : depEdge tasks a b) : isKeyP tasks b := by
  rcases h with ⟨t, ht, rfl, _⟩
  exact List.mem_map.mpr ⟨t, ht, rfl⟩

/-- The edge relation as the code builds it (adjacency membership). -/
def edgeAdj (tasks : List TaskNode) (a b : String) : Prop :=
  b ∈ adjacency tasks a

theorem transGen_target_key {tasks : List TaskNode} {a b : String}
    (h : Relation.TransGen (depEdge tasks) a b) : isKeyP tasks b := by
  induction h with
  | single h1 => exact depEdge_target_key h1
  | tail _ h2 _ => exact depEdge_target_key h2

theorem transGen_dep_to_adj {tasks : List TaskNode} {a b : String}
    (h : Relation.TransGen (depEdge tasks) a b) (ha : isKeyP tasks a) :
    Relation.TransGen (edgeAdj tasks) a b := by
  induction h using Relation.TransGen.head_induction_on with
  | base h1 =>
    exact Relation.TransGen.single (mem_adjacency.mpr ⟨ha, h1⟩)
  | ih h1 _ ih2 =>
    exact Relation.TransGen.head (mem_adjacency.mpr ⟨ha, h1⟩) (ih2 (depEdge_target_key h1))

theorem hasCycleProp_iff_adj (tasks : List TaskNode) :
    hasCycleProp tasks ↔ ∃ x, Relation.TransGen (edgeAdj tasks) x x := by
  constructor
  · rintro ⟨x, h⟩
    exact ⟨x, transGen_dep_to_adj h (transGen_target_key h)⟩
  · rintro ⟨x, h⟩
    refine ⟨x, Relation.TransGen.mono ?_ h⟩
    intro a b hab
    exact (mem_adjacency.mp hab).2

/-- Edge relation of an abstract adjacency function. -/
def edgeAdjF (adj : String → List String) (a b : String) : Prop :=
  b ∈ adj a

/-- A finished DFS node: visited and off the recursion stack. -/
def Dmem (s : DfsState) (x : String) : Prop :=
  x ∈ s.visited ∧ x ∉ s.stack

/-- Acyclicity witness for the finished region: a rank strictly decreasing
backwards along edges, with the region closed under successors. -/
def AcyInv (adj : String → List String) (s : DfsState) : Prop :=
  ∃ r : String → Nat, ∀ y, Dmem s y → ∀ z ∈ adj y, Dmem s z ∧ r z < r y

/-- The recursion stack is a path: each entry is a successor of the entry
below it. -/
def StackChain (adj : String → List String) (s : DfsState) : Prop :=
  List.Chain' (fun a b => a ∈ adj b) s.stack

/-- Number of keys not yet visited (drives the fuel bound). -/
def unvisCount (U : List String) (s : DfsState) : Nat :=
  U.countP (fun x => decide (x ∉ s.visited))

theorem unvisCount_mono {U : List String} {s s2 : DfsState}
    (h : s.visited ⊆ s2.visited) : unvisCount U s2 ≤ unvisCount U s := by
  apply List.countP_mono_left
  intro a _ ha
  simp only [decide_eq_true_eq] at ha ⊢
  exact fun hmem => ha (h hmem)

theorem unvisCount_push {U : List String} {s : DfsState} {v : String}
    (hv : v ∈ U) (hnv : v ∉ s.visited) (s2 : DfsState)
    (h2 : s2.visited = v :: s.visited) :
    unvisCount U s2 < unvisCount U s := by
  unfold unvisCount
  have hmono : ∀ (l : List String), l.countP (fun x => decide (x ∉ s2.visited)) ≤
      l.countP (fun x => decide (x ∉ s.visited)) := by
    intro l
    apply List.countP_mono_left
    intro b _ hb
    simp only [decide_eq_true_eq, h2] at hb ⊢
    exact fun hmem => hb (List.mem_cons.mpr (Or.inr hmem))
  induction U with
  | nil => simp at hv
  | cons a U ih =>
    rw [List.countP_cons, List.countP_cons]
    by_cases hva : v = a
    · subst hva
      have hpa : (decide (v ∉ s2.visited)) = false := by simp [h2]
      have hqa : (decide (v ∉ s.visited)) = true := by simpa using hnv
      rw [hpa, hqa]
      have := hmono U
      simp only [if_neg (by simp : ¬ false = true), if_pos rfl, if_true]
      omega
    · have hvU : v ∈ U := by
        rcases List.mem_cons.mp hv with h | h
        · exact absurd h hva
        · exact h
      have hih := ih hvU
      by_cases hmem : a ∈ s.visited
      · have hmem2 : a ∈ s2.visited := h2 ▸ List.mem_cons.mpr (Or.inr hmem)
        rw [if_neg (by simp [hmem2]), if_neg (by simp [hmem])]
        omega
      · by_cases hmem2 : a ∈ s2.visited
        · rw [if_neg (by simp [hmem2]), if_pos (by simpa using hmem)]
          omega
        · rw [if_pos (by simpa using hmem2), if_pos (by simpa using hmem)]
          omega

theorem dfsScan_vis_mono {visit : String → DfsState → Bool × DfsState}
    (hv : ∀ n s b s2, visit n s = (b, s2) → s.visited ⊆ s2.visited) :
    ∀ ns s b s2, dfsScan visit ns s = (b, s2) → s.visited ⊆ s2.visited := by
  intro ns
  induction ns with
  | nil =>
    intro s b s2 h
    simp only [dfsScan] at h
    injection h with h1 h2
    exact h2 ▸ List.Subset.refl _
  | cons n ns ih =>
    intro s b s2 h
    simp only [dfsScan] at h
    by_cases h1 : n ∈ s.visited
    · rw [if_pos h1] at h
      by_cases h2 : n ∈ s.stack
      · rw [if_pos h2] at h
        injection h with ha hb
        exact hb ▸ List.Subset.refl _
      · rw [if_neg h2] at h
        exact ih s b s2 h
    · rw [if_neg h1] at h
      rcases hv2 : visit n s with ⟨b3, s3⟩
      rw [hv2] at h
      cases b3
      · simp only at h
        exact List.Subset.trans (hv n s false s3 hv2) (ih s3 b s2 h)
      · simp only at h
        injection h with ha hb
        exact hb ▸ hv n s true s3 hv2

theorem dfsScan_stack_of_false {visit : String → DfsState → Bool × DfsState}
    (hv : ∀ n s s2, visit n s = (false, s2) → s2.stack = s.stack) :
    ∀ ns s s2, dfsScan visit ns s = (false, s2) → s2.stack = s.stack := by
  intro ns
  induction ns with
  | nil =>
    intro s s2 h
    simp only [dfsScan] at h
    injection h with h1 h2
    rw [h2]
  | cons n ns ih =>
    intro s s2 h
    simp only [dfsScan] at h
    by_cases h1 : n ∈ s.visited
    · rw [if_pos h1] at h
      by_cases h2 : n ∈ s.stack
      · rw [if_pos h2] at h
        exact absurd h (by simp)
      · rw [if_neg h2] at h
        exact ih s s2 h
    · rw [if_neg h1] at h
      rcases hv2 : visit n s with ⟨b3, s3⟩
      rw [hv2] at h
      cases b3
      · simp only at h
        rw [ih s3 s2 h, hv n s s3 hv2]
      · simp only at h
        exact absurd h (by simp)

theorem dfsScan_closed {visit : String → DfsState → Bool × DfsState} {U : List String}
    (hv : ∀ n s b s2, n ∈ U → (∀ x ∈ s.visited, x ∈ U) → visit n s = (b, s2) →
      ∀ x ∈ s2.visited, x ∈ U) :
    ∀ ns s b s2, (∀ n ∈ ns, n ∈ U) → (∀ x ∈ s.visited, x ∈ U) →
      dfsScan visit ns s = (b, s2) → ∀ x ∈ s2.visited, x ∈ U := by
  intro ns
  induction ns with
  | nil =>
    intro s b s2 _ hs h
    simp only [dfsScan] at h
    injection h with h1 h2
    exact h2 ▸ hs
  | cons n ns ih =>
    intro s b s2 hns hs h
    simp only [dfsScan] at h
    by_cases h1 : n ∈ s.visited
    · rw [if_pos h1] at h
      by_cases h2 : n ∈ s.stack
      · rw [if_pos h2] at h
        injection h with ha hb
        exact hb ▸ hs
      · rw [if_neg h2] at h
        exact ih s b s2 (fun m hm => hns m (List.mem_cons.mpr (Or.inr hm))) hs h
    · rw [if_neg h1] at h
      rcases hv2 : visit n s with ⟨b3, s3⟩
      rw [hv2] at h
      cases b3
      · simp only at h
        exact ih s3 b s2 (fun m hm => hns m (List.mem_cons.mpr (Or.inr hm)))
          (hv n s false s3 (hns n (List.mem_cons_self n ns)) hs hv2) h
      · simp only at h
        injection h with ha hb
        exact hb ▸ hv n s true s3 (hns n (List.mem_cons_self n ns)) hs hv2

theorem dfsVisit_vis_mono (adj : String → List String) :
    ∀ fuel v s b s2, dfsVisit adj fuel v s = (b, s2) → s.visited ⊆ s2.visited := by
  intro fuel
  induction fuel with
  | zero =>
    intro v s b s2 h
    simp only [dfsVisit] at h
    injection h with h1 h2
    exact h2 ▸ List.Subset.refl _
  | succ n ih =>
    intro v s b s2 h
    simp only [dfsVisit] at h
    rcases hsc : dfsScan (dfsVisit adj n) (adj v) ⟨v :: s.visited, v :: s.stack⟩ with ⟨b3, s3⟩
    rw [hsc] at h
    have hmono := dfsScan_vis_mono (fun n2 s4 b4 s5 => ih n2 s4 b4 s5) (adj v) _ b3 s3 hsc
    have hsub : s.visited ⊆ s3.visited := fun x hx =>
      hmono (List.mem_cons.mpr (Or.inr hx))
    cases b3
    · simp only at h
      injection h with ha hb
      exact hb ▸ hsub
    · simp only at h
      injection h with ha hb
      exact hb ▸ hsub

theorem dfsVisit_stack_of_false (adj : String → List String) :
    ∀ fuel v s s2, dfsVisit adj fuel v s = (false, s2) → s2.stack = s.stack := by
  intro fuel
  induction fuel with
  | zero =>
    intro v s s2 h
    simp only [dfsVisit] at h
    exact absurd h (by simp)
  | succ n ih =>
    intro v s s2 h
    simp only [dfsVisit] at h
    rcases hsc : dfsScan (dfsVisit adj n) (adj v) ⟨v :: s.visited, v :: s.stack⟩ with ⟨b3, s3⟩
    rw [hsc] at h
    cases b3
    · simp only at h
      injection h with ha hb
      have hst := dfsScan_stack_of_false (fun n2 s4 s5 => ih n2 s4 s5) (adj v) _ s3 hsc
      rw [← hb]
      simp only
      rw [hst]
      simp only
      exact List.erase_cons_head v s.stack
    · simp only at h
      exact absurd h (by simp)

theorem dfsVisit_closed (adj : String → List String) {U : List String}
    (hadj : ∀ a b, b ∈ adj a → b ∈ U) :
    ∀ fuel v s b s2, v ∈ U → (∀ x ∈ s.visited, x ∈ U) →
      dfsVisit adj fuel v s = (b, s2) → ∀ x ∈ s2.visited, x ∈ U := by
  intro fuel
  induction fuel with
  | zero =>
    intro v s b s2 _ hs h
    simp only [dfsVisit] at h
    injection h with h1 h2
    exact h2 ▸ hs
  | succ n ih =>
    intro v s b s2 hv hs h
    simp only [dfsVisit] at h
    rcases hsc : dfsScan (dfsVisit adj n) (adj v) ⟨v :: s.visited, v :: s.stack⟩ with ⟨b3, s3⟩
    rw [hsc] at h
    have hs1 : ∀ x ∈ (DfsState.mk (v :: s.visited) (v :: s.stack)).visited, x ∈ U := by
      intro x hx
      rcases List.mem_cons.mp hx with rfl | hx2
      · exact hv
      · exact hs x hx2
    have hcl := dfsScan_closed (fun n2 s4 b4 s5 => ih n2 s4 b4 s5) (adj v) _ b3 s3
      (fun m hm => hadj v m hm) hs1 hsc
    cases b3
    · simp only at h
      injection h with ha hb
      exact hb ▸ hcl
    · simp only at h
      injection h with ha hb
      exact hb ▸ hcl

theorem chain_reaches_head {adj : String → List String} :
    ∀ {t : List String} {h x : String},
      List.Chain' (fun a b => a ∈ adj b) (h :: t) → x ∈ h :: t →
      Relation.ReflTransGen (edgeAdjF adj) x h := by
  intro t
  induction t with
  | nil =>
    intro h x _ hx
    rcases List.mem_cons.mp hx with rfl | hx2
    · exact Relation.ReflTransGen.refl
    · simp at hx2
  | cons h2 t ih =>
    intro h x hch hx
    rcases List.mem_cons.mp hx with rfl | hx2
    · exact Relation.ReflTransGen.refl
    · have hch2 : List.Chain' (fun a b => a ∈ adj b) (h2 :: t) :=
        (List.chain'_cons.mp hch).2
    
      have hedge : h ∈ adj h2 := (List.chain'_cons.mp hch).1
      exact Relation.ReflTransGen.tail (ih hch2 hx2) hedge

theorem dfsScan_sound {adj : String → List String} {U : List String} {F : Nat}
    {visit : String → DfsState → Bool × DfsState}
    (hVmono : ∀ n s b s2, visit n s = (b, s2) → s.visited ⊆ s2.visited)
    (hVstackF : ∀ n s s2, visit n s = (false, s2) → s2.stack = s.stack)
    (hVclosed : ∀ n s b s2, n ∈ U → (∀ x ∈ s.visited, x ∈ U) → visit n s = (b, s2) →
      ∀ x ∈ s2.visited, x ∈ U)
    (hVsound : ∀ n s s2, n ∉ s.visited → StackChain adj s →
      (s.stack = [] ∨ ∃ h2 t, s.stack = h2 :: t ∧ n ∈ adj h2) →
      (∀ x ∈ s.visited, x ∈ U) → n ∈ U → unvisCount U s ≤ F →
      visit n s = (true, s2) → ∃ x, Relation.TransGen (edgeAdjF adj) x x) :
    ∀ ns s s2 v0 t0, dfsScan visit ns s = (true, s2) →
      s.stack = v0 :: t0 → (∀ n ∈ ns, n ∈ adj v0) → StackChain adj s →
      (∀ x ∈ s.visited, x ∈ U) → (∀ n ∈ ns, n ∈ U) → unvisCount U s ≤ F →
      ∃ x, Relation.TransGen (edgeAdjF adj) x x := by
  intro ns
  induction ns with
  | nil =>
    intro s s2 v0 t0 h
    simp only [dfsScan] at h
    exact absurd h (by simp)
  | cons n ns ih =>
    intro s s2 v0 t0 h hstk hadj hch hvisU hnsU hcnt
    simp only [dfsScan] at h
    by_cases h1 : n ∈ s.visited
    · rw [if_pos h1] at h
      by_cases h2 : n ∈ s.stack
      · have hrt : Relation.ReflTransGen (edgeAdjF adj) n v0 := by
          apply @chain_reaches_head adj
          · rw [← hstk]
            exact hch
          · rw [← hstk]
            exact h2
        refine ⟨n, Relation.TransGen.tail' hrt ?_⟩
        exact hadj n (List.mem_cons_self n ns)
      · rw [if_neg h2] at h
        exact ih s s2 v0 t0 h hstk (fun m hm => hadj m (List.mem_cons.mpr (Or.inr hm)))
          hch hvisU (fun m hm => hnsU m (List.mem_cons.mpr (Or.inr hm))) hcnt
    · rw [if_neg h1] at h
      rcases hv2 : visit n s with ⟨b3, s3⟩
      rw [hv2] at h
      cases b3
      · simp only at h
        have hstk3 : s3.stack = v0 :: t0 := by
          rw [hVstackF n s s3 hv2, hstk]
        have hch3 : StackChain adj s3 := by
          unfold StackChain
          rw [hVstackF n s s3 hv2]
          exact hch
        exact ih s3 s2 v0 t0 h hstk3 (fun m hm => hadj m (List.mem_cons.mpr (Or.inr hm)))
          hch3 (hVclosed n s false s3 (hnsU n (List.mem_cons_self n ns)) hvisU hv2)
          (fun m hm => hnsU m (List.mem_cons.mpr (Or.inr hm)))
          (le_trans (unvisCount_mono (hVmono n s false s3 hv2)) hcnt)
      · simp only at h
        exact hVsound n s s3 h1 hch
          (Or.inr ⟨v0, t0, hstk, hadj n (List.mem_cons_self n ns)⟩) hvisU
          (hnsU n (List.mem_cons_self n ns)) hcnt hv2

theorem dfsVisit_sound {adj : String → List String} {U : List String}
    (hadjU : ∀ a b, b ∈ adj a → b ∈ U) :
    ∀ fuel v s s2, v ∉ s.visited → StackChain adj s →
      (s.stack = [] ∨ ∃ h2 t, s.stack = h2 :: t ∧ v ∈ adj h2) →
      (∀ x ∈ s.visited, x ∈ U) → v ∈ U → unvisCount U s ≤ fuel →
      dfsVisit adj fuel v s = (true, s2) →
      ∃ x, Relation.TransGen (edgeAdjF adj) x x := by
  intro fuel
  induction fuel with
  | zero =>
    intro v s s2 hnv _ _ _ hvU hcnt _
    have : 0 < unvisCount U s := by
      apply List.countP_pos_iff.mpr
      exact ⟨v, hvU, by simpa using hnv⟩
    omega
  | succ n ih =>
    intro v s s2 hnv hch hhead hvisU hvU hcnt h
    simp only [dfsVisit] at h
    rcases hsc : dfsScan (dfsVisit adj n) (adj v) ⟨v :: s.visited, v :: s.stack⟩ with ⟨b3, s3⟩
    rw [hsc] at h
    cases b3
    · simp only at h
      exact absurd h (by simp)
    · have hch1 : StackChain adj (DfsState.mk (v :: s.visited) (v :: s.stack)) := by
        unfold StackChain at hch ⊢
        simp only
        rcases hhead with hemp | ⟨h2, t, hstk, hmem⟩
        · rw [hemp]
          simp
        · rw [hstk] at hch ⊢
          exact List.chain'_cons.mpr ⟨hmem, hch⟩
      have hvis1 : ∀ x ∈ (DfsState.mk (v :: s.visited) (v :: s.stack)).visited, x ∈ U := by
        intro x hx
        rcases List.mem_cons.mp hx with rfl | hx2
        · exact hvU
        · exact hvisU x hx2
      have hcnt1 : unvisCount U (DfsState.mk (v :: s.visited) (v :: s.stack)) ≤ n := by
        have := unvisCount_push hvU hnv (DfsState.mk (v :: s.visited) (v :: s.stack)) rfl
        omega
      exact dfsScan_sound (dfsVisit_vis_mono adj n) (dfsVisit_stack_of_false adj n)
        (fun n2 s4 b4 s5 => dfsVisit_closed adj hadjU n n2 s4 b4 s5)
        (fun n2 s4 s5 => ih n2 s4 s5)
        (adj v) _ s3 v s.stack hsc rfl (fun m hm => hm) hch1 hvis1
        (fun m hm => hadjU v m hm) hcnt1

theorem dfsFind_sound {adj : String → List String} {U : List String}
    (hadjU : ∀ a b, b ∈ adj a → b ∈ U) :
    ∀ fuel (vs : List String) s v, (∀ x ∈ vs, x ∈ U) → (∀ x ∈ s.visited, x ∈ U) →
      s.stack = [] → unvisCount U s ≤ fuel →
      dfsFind adj fuel vs s = some v →
      ∃ x, Relation.TransGen (edgeAdjF adj) x x := by
  intro fuel vs
  induction vs with
  | nil =>
    intro s v _ _ _ _ h
    simp [dfsFind] at h
  | cons w vs ih =>
    intro s v hvsU hvisU hstk hcnt h
    simp only [dfsFind] at h
    by_cases h1 : w ∈ s.visited
    · rw [if_pos h1] at h
      exact ih s v (fun m hm => hvsU m (List.mem_cons.mpr (Or.inr hm))) hvisU hstk hcnt h
    · rw [if_neg h1] at h
      rcases hv2 : dfsVisit adj fuel w s with ⟨b3, s3⟩
      rw [hv2] at h
      cases b3
      · simp only at h
        have hstk3 : s3.stack = [] := by
          rw [dfsVisit_stack_of_false adj fuel w s s3 hv2, hstk]
        exact ih s3 v (fun m hm => hvsU m (List.mem_cons.mpr (Or.inr hm)))
          (dfsVisit_closed adj hadjU fuel w s false s3 (hvsU w (List.mem_cons_self w vs)) hvisU hv2)
          hstk3 (le_trans (unvisCount_mono (dfsVisit_vis_mono adj fuel w s false s3 hv2)) hcnt) h
      · exact dfsVisit_sound hadjU fuel w s s3 h1
          (by unfold StackChain; rw [hstk]; simp) (Or.inl hstk) hvisU
          (hvsU w (List.mem_cons_self w vs)) hcnt hv2

theorem le_foldr_max (l : List Nat) : ∀ x ∈ l, x ≤ l.foldr max 0 := by
  induction l with
  | nil => intro x hx; simp at hx
  | cons a l ih =>
    intro x hx
    rcases List.mem_cons.mp hx with rfl | hx2
    · exact le_max_left _ _
    · exact le_trans (ih x hx2) (le_max_right _ _)

theorem Dmem_push {s : DfsState} {v : String} (hnv : v ∉ s.visited) (y : String) :
    Dmem (DfsState.mk (v :: s.visited) (v :: s.stack)) y ↔ Dmem s y := by
  unfold Dmem
  simp only
  constructor
  · rintro ⟨hy1, hy2⟩
    rcases List.mem_cons.mp hy1 with rfl | hy3
    · exact absurd (List.mem_cons_self y s.stack) hy2
    · exact ⟨hy3, fun hmem => hy2 (List.mem_cons.mpr (Or.inr hmem))⟩
  · rintro ⟨hy1, hy2⟩
    have hne : y ≠ v := fun he => hnv (he ▸ hy1)
    refine ⟨List.mem_cons.mpr (Or.inr hy1), fun hmem => ?_⟩
    rcases List.mem_cons.mp hmem with he | hmem2
    · exact hne he
    · exact hy2 hmem2

theorem dfsScan_complete {adj : String → List String}
    {visit : String → DfsState → Bool × DfsState}
    (hVcomp : ∀ n s s2, visit n s = (false, s2) → n ∉ s.visited →
      s.stack ⊆ s.visited → AcyInv adj s →
      (s.visited ⊆ s2.visited ∧ s2.stack = s.stack ∧ s2.stack ⊆ s2.visited ∧
        Dmem s2 n ∧ AcyInv adj s2)) :
    ∀ ns s s2, dfsScan visit ns s = (false, s2) → s.stack ⊆ s.visited →
      AcyInv adj s →
      (s.visited ⊆ s2.visited ∧ s2.stack = s.stack ∧ s2.stack ⊆ s2.visited ∧
        AcyInv adj s2 ∧ ∀ n ∈ ns, Dmem s2 n) := by
  intro ns
  induction ns with
  | nil =>
    intro s s2 h hsv hacy
    simp only [dfsScan] at h
    injection h with h1 h2
    subst h2
    exact ⟨List.Subset.refl _, rfl, hsv, hacy, by simp⟩
  | cons n ns ih =>
    intro s s2 h hsv hacy
    simp only [dfsScan] at h
    by_cases h1 : n ∈ s.visited
    · rw [if_pos h1] at h
      by_cases h2 : n ∈ s.stack
      · rw [if_pos h2] at h
        exact absurd h (by simp)
      · rw [if_neg h2] at h
        obtain ⟨ha, hb, hc, hd, he⟩ := ih s s2 h hsv hacy
        refine ⟨ha, hb, hc, hd, fun m hm => ?_⟩
        rcases List.mem_cons.mp hm with rfl | hm2
        · exact ⟨ha h1, hb ▸ h2⟩
        · exact he m hm2
    · rw [if_neg h1] at h
      rcases hv2 : visit n s with ⟨b3, s3⟩
      rw [hv2] at h
      cases b3
      · simp only at h
        obtain ⟨ha3, hb3, hc3, hd3, he3⟩ := hVcomp n s s3 hv2 h1 hsv hacy
        obtain ⟨ha, hb, hc, hd, he⟩ := ih s3 s2 h hc3 he3
        refine ⟨List.Subset.trans ha3 ha, hb.trans hb3, hc, hd, fun m hm => ?_⟩
        rcases List.mem_cons.mp hm with rfl | hm2
        · exact ⟨ha hd3.1, fun hmem => hd3.2 (hb ▸ hmem)⟩
        · exact he m hm2
      · simp only at h
        exact absurd h (by simp)

theorem dfsVisit_complete (adj : String → List String) :
    ∀ fuel v s s2, dfsVisit adj fuel v s = (false, s2) → v ∉ s.visited →
      s.stack ⊆ s.visited → AcyInv adj s →
      (s.visited ⊆ s2.visited ∧ s2.stack = s.stack ∧ s2.stack ⊆ s2.visited ∧
        Dmem s2 v ∧ AcyInv adj s2) := by
  intro fuel
  induction fuel with
  | zero =>
    intro v s s2 h
    simp only [dfsVisit] at h
    exact absurd h (by simp)
  | succ n ih =>
    intro v s s2 h hnv hsv hacy
    simp only [dfsVisit] at h
    rcases hsc : dfsScan (dfsVisit adj n) (adj v) ⟨v :: s.visited, v :: s.stack⟩ with ⟨b3, s3⟩
    rw [hsc] at h
    cases b3
    · simp only at h
      injection h with ha hb
      subst hb
      have hsv1 : (DfsState.mk (v :: s.visited) (v :: s.stack)).stack ⊆
          (DfsState.mk (v :: s.visited) (v :: s.stack)).visited := by
        simp only
        intro x hx
        rcases List.mem_cons.mp hx with rfl | hx2
        · exact List.mem_cons_self x s.visited
        · exact List.mem_cons.mpr (Or.inr (hsv hx2))
      have hacy1 : AcyInv adj (DfsState.mk (v :: s.visited) (v :: s.stack)) := by
        obtain ⟨r, hr⟩ := hacy
        refine ⟨r, fun y hy z hz => ?_⟩
        rw [Dmem_push hnv] at hy
        obtain ⟨hz1, hz2⟩ := hr y hy z hz
        exact ⟨(Dmem_push hnv z).mpr hz1, hz2⟩
      obtain ⟨ha3, hb3, hc3, hAcy3, hAll3⟩ :=
        dfsScan_complete (fun n2 s4 s5 => ih n2 s4 s5) (adj v) _ s3 hsc hsv1 hacy1
      have hstk3 : s3.stack = v :: s.stack := hb3
      have hvmem : v ∈ s3.visited := ha3 (List.mem_cons_self v s.visited)
      have hvns : v ∉ s.stack := fun hmem => hnv (hsv hmem)
      have herase : s3.stack.erase v = s.stack := by
        rw [hstk3]
        exact List.erase_cons_head v s.stack
      constructor
      · exact fun x hx => ha3 (List.mem_cons.mpr (Or.inr hx))
      refine ⟨by simp [herase], ?_, ?_, ?_⟩
      · simp only [herase]
        intro x hx
        exact ha3 (List.mem_cons.mpr (Or.inr (hsv hx)))
      · exact ⟨hvmem, by simp [herase, hvns]⟩
      · obtain ⟨r3, hr3⟩ := hAcy3
        have hDv : ¬ Dmem s3 v := by
          intro hD
          exact hD.2 (hstk3 ▸ List.mem_cons_self v s.stack)
        have hDiff : ∀ y, Dmem (DfsState.mk s3.visited (s3.stack.erase v)) y ↔
            (y = v ∨ Dmem s3 y) := by
          intro y
          unfold Dmem
          simp only [herase]
          constructor
          · rintro ⟨hy1, hy2⟩
            by_cases hyv : y = v
            · exact Or.inl hyv
            · refine Or.inr ⟨hy1, fun hmem => ?_⟩
              rw [hstk3] at hmem
              rcases List.mem_cons.mp hmem with he | hmem2
              · exact hyv he
              · exact hy2 hmem2
          · rintro (rfl | ⟨hy1, hy2⟩)
            · exact ⟨hvmem, hvns⟩
            · exact ⟨hy1, fun hmem => hy2 (hstk3 ▸ List.mem_cons.mpr (Or.inr hmem))⟩
        set M := ((adj v).map r3).foldr max 0 with hM
        refine ⟨fun w => if w = v then M + 1 else r3 w, fun y hy z hz => ?_⟩
        rcases (hDiff y).mp hy with rfl | hy2
        · have hDz : Dmem s3 z := hAll3 z hz
          have hzne : z ≠ y := fun he => hDv (he ▸ hDz)
          refine ⟨(hDiff z).mpr (Or.inr hDz), ?_⟩
          simp only [if_neg hzne, if_pos rfl, if_true]
          have : r3 z ≤ M := le_foldr_max _ _ (List.mem_map.mpr ⟨z, hz, rfl⟩)
          omega
        · obtain ⟨hDz, hlt⟩ := hr3 y hy2 z hz
          have hzne : z ≠ v := fun he => hDv (he ▸ hDz)
          have hyne : y ≠ v := fun he => hDv (he ▸ hy2)
          refine ⟨(hDiff z).mpr (Or.inr hDz), ?_⟩
          simp only [if_neg hzne, if_neg hyne]
          exact hlt
    · simp only at h
      exact absurd h (by simp)

theorem dfsFind_complete {adj : String → List String} :
    ∀ fuel (vs : List String) s, dfsFind adj fuel vs s = none → s.stack = [] →
      AcyInv adj s →
      ∃ s2, (∀ x ∈ s.visited, x ∈ s2.visited) ∧ (∀ v ∈ vs, v ∈ s2.visited) ∧
        s2.stack = [] ∧ AcyInv adj s2 := by
  intro fuel vs
  induction vs with
  | nil =>
    intro s _ hstk hacy
    exact ⟨s, fun x hx => hx, by simp, hstk, hacy⟩
  | cons w vs ih =>
    intro s h hstk hacy
    simp only [dfsFind] at h
    by_cases h1 : w ∈ s.visited
    · rw [if_pos h1] at h
      obtain ⟨s2, ha, hb, hc, hd⟩ := ih s h hstk hacy
      refine ⟨s2, ha, fun m hm => ?_, hc, hd⟩
      rcases List.mem_cons.mp hm with rfl | hm2
      · exact ha m h1
      · exact hb m hm2
    · rw [if_neg h1] at h
      rcases hv2 : dfsVisit adj fuel w s with ⟨b3, s3⟩
      rw [hv2] at h
      cases b3
      · simp only at h
        have hsv : s.stack ⊆ s.visited := by
          rw [hstk]
          simp
        obtain ⟨ha3, hb3, _, hd3, he3⟩ := dfsVisit_complete adj fuel w s s3 hv2 h1 hsv hacy
        have hstk3 : s3.stack = [] := hb3.trans hstk
        obtain ⟨s2, ha, hb, hc, hd⟩ := ih s3 h hstk3 he3
        refine ⟨s2, fun x hx => ha x (ha3 hx), fun m hm => ?_, hc, hd⟩
        rcases List.mem_cons.mp hm with rfl | hm2
        · exact ha m hd3.1
        · exact hb m hm2
      · simp at h

theorem transGen_adj_target_key {tasks : List TaskNode} {a b : String}
    (h : Relation.TransGen (edgeAdj tasks) a b) : isKeyP tasks b := by
  induction h with
  | single h1 => exact adjacency_target_key h1
  | tail _ h2 _ => exact adjacency_target_key h2

theorem validateDag_some_cycle {tasks : List TaskNode} {v : String}
    (h : validateDag tasks = some v) : hasCycleProp tasks := by
  rw [hasCycleProp_iff_adj]
  unfold validateDag at h
  have hadjU : ∀ a b, b ∈ adjacency tasks a → b ∈ graphKeys tasks :=
    fun a b hb => mem_graphKeys.mpr (adjacency_target_key hb)
  exact dfsFind_sound hadjU _ (graphKeys tasks) ⟨[], []⟩ v
    (fun x hx => hx) (by simp) rfl
    (le_trans (List.countP_le_length _) (Nat.le_succ _)) h

theorem validateDag_none_no_cycle {tasks : List TaskNode}
    (h : validateDag tasks = none) : ¬ hasCycleProp tasks := by
  intro hcyc
  rw [hasCycleProp_iff_adj] at hcyc
  obtain ⟨x, htg⟩ := hcyc
  unfold validateDag at h
  have hacy0 : AcyInv (adjacency tasks) ⟨[], []⟩ := by
    refine ⟨fun _ => 0, fun y hy z _ => ?_⟩
    exact absurd hy.1 (by simp)
  obtain ⟨s2, _, hcov, hstk, r, hr⟩ := dfsFind_complete _ (graphKeys tasks) ⟨[], []⟩ h rfl hacy0
  have hDall : ∀ k, isKeyP tasks k → Dmem s2 k := by
    intro k hk
    exact ⟨hcov k (mem_graphKeys.mpr hk), by simp [hstk]⟩
  have hdesc : ∀ a b, Relation.TransGen (edgeAdj tasks) a b → Dmem s2 a →
      r b < r a ∧ Dmem s2 b := by
    intro a b htg2 hDa
    induction htg2 with
    | single h1 => exact ⟨(hr a hDa _ h1).2, (hr a hDa _ h1).1⟩
    | tail htg3 h2 ih =>
      obtain ⟨hlt, hDc⟩ := ih
      obtain ⟨hDb, hlt2⟩ := hr _ hDc _ h2
      exact ⟨lt_trans hlt2 hlt, hDb⟩
  have hDx : Dmem s2 x := hDall x (transGen_adj_target_key htg)
  have := (hdesc x x htg hDx).1
  omega

theorem hasCycleB_iff_prop (tasks : List TaskNode) :
    hasCycleB tasks = true ↔ hasCycleProp tasks := by
  unfold hasCycleB
  cases hv : validateDag tasks with
  | none =>
    simp only [Option.isSome_none]
    constructor
    · intro h
      simp at h
    · intro h
      exact absurd h (validateDag_none_no_cycle hv)
  | some v =>
    simp only [Option.isSome_some]
    exact ⟨fun _ => validateDag_some_cycle hv, fun _ => trivial⟩

theorem make_ok_iff (tasks : List TaskNode) :
    (∃ g, TaskGraph.make tasks = .ok g) ↔ ¬ hasCycleProp tasks := by
  unfold TaskGraph.make
  cases hv : validateDag tasks with
  | none =>
    simp only
    exact ⟨fun _ => validateDag_none_no_cycle hv, fun _ => ⟨⟨tasks⟩, rfl⟩⟩
  | some v =>
    simp only
    constructor
    · rintro ⟨g, hg⟩
      exact absurd hg (by simp)
    · intro h
      exact absurd (validateDag_some_cycle hv) h

theorem make_error_iff (tasks : List TaskNode) :
    (∃ e, TaskGraph.make tasks = .error e) ↔ hasCycleProp tasks := by
  unfold TaskGraph.make
  cases hv : validateDag tasks with
  | none =>
    simp only
    constructor
    · rintro ⟨e, he⟩
      exact absurd he (by simp)
    · intro h
      exact absurd h (validateDag_none_no_cycle hv)
  | some v =>
    simp only
    exact ⟨fun _ => validateDag_some_cycle hv, fun _ => ⟨_, rfl⟩⟩

theorem make_ok_tasks {tasks : List TaskNode} {g : TaskGraph}
    (h : TaskGraph.make tasks = .ok g) : g = ⟨tasks⟩ := by
  unfold TaskGraph.make at h
  cases hv : validateDag tasks with
  | none =>
    rw [hv] at h
    injection h with h1
    exact h1.symm
  | some v =>
    rw [hv] at h
    exact absurd h (by simp)

/-- Number of edges into `x` whose source lies in `P` (with multiplicity). -/
def inFrom (adj : String → List String) (P : List String) (x : String) : Nat :=
  (P.map (fun p => (adj p).count x)).sum

theorem inFrom_append (adj : String → List String) (P Q : List String) (x : String) :
    inFrom adj (P ++ Q) x = inFrom adj P x + inFrom adj Q x := by
  unfold inFrom
  rw [List.map_append, List.sum_append]

theorem inFrom_le_of_subperm {adj : String → List String} {S K : List String}
    (h : S.Subperm K) (x : String) : inFrom adj S x ≤ inFrom adj K x := by
  obtain ⟨l, hperm, hsub⟩ := h
  unfold inFrom
  calc (S.map (fun p => (adj p).count x)).sum
      = (l.map (fun p => (adj p).count x)).sum :=
        (List.Perm.sum_eq (List.Perm.map _ hperm)).symm
    _ ≤ (K.map (fun p => (adj p).count x)).sum :=
        List.Sublist.sum_le_sum (List.Sublist.map _ hsub) (by simp)

theorem inFrom_le {adj : String → List String} {S K : List String}
    (hS : S.Nodup) (hsub : ∀ a ∈ S, a ∈ K) (x : String) :
    inFrom adj S x ≤ inFrom adj K x :=
  inFrom_le_of_subperm (List.subperm_of_subset hS hsub) x

theorem count_flatMap (adj : String → List String) (x : String) :
    ∀ q : List String, (q.flatMap adj).count x = inFrom adj q x := by
  intro q
  induction q with
  | nil => simp [inFrom]
  | cons a q ih =>
    rw [List.flatMap_cons, List.count_append, ih]
    simp [inFrom]

theorem degLookup_map_eq (K : List String) (F : String → Int) {b : String} (hb : b ∈ K) :
    degLookup (K.map (fun k => (k, F k))) b = some (F b) := by
  induction K with
  | nil => simp at hb
  | cons k0 K ih =>
    by_cases hk : k0 = b
    · subst hk
      simp [degLookup, List.find?]
    · rcases List.mem_cons.mp hb with rfl | hb2
      · exact absurd rfl hk
      · simp only [degLookup, List.map_cons, List.find?] at ih ⊢
        rw [show ((k0, F k0).1 == b) = false by simpa using hk]
        exact ih hb2

theorem degLookup_map_none (K : List String) (F : String → Int) {b : String} (hb : b ∉ K) :
    degLookup (K.map (fun k => (k, F k))) b = none := by
  induction K with
  | nil => simp [degLookup]
  | cons k0 K ih =>
    have hk : ¬ k0 = b := fun he => hb (he ▸ List.mem_cons_self k0 K)
    have hb2 : b ∉ K := fun hm => hb (List.mem_cons.mpr (Or.inr hm))
    simp only [degLookup, List.map_cons, List.find?] at ih ⊢
    rw [show ((k0, F k0).1 == b) = false by simpa using hk]
    exact ih hb2

theorem degDec_map {K : List String} (hK : K.Nodup) (F : String → Int) {b : String}
    (hb : b ∈ K) :
    degDec (K.map (fun k => (k, F k))) b =
      K.map (fun k => (k, if k = b then F k - 1 else F k)) := by
  induction K with
  | nil => simp at hb
  | cons k0 K ih =>
    rcases List.nodup_cons.mp hK with ⟨hk0, hKnd⟩
    by_cases hk : k0 = b
    · subst hk
      have h1 : degDec ((k0, F k0) :: K.map (fun k => (k, F k))) k0 =
          (k0, F k0 - 1) :: K.map (fun k => (k, F k)) := by
        simp [degDec]
      rw [List.map_cons, h1, List.map_cons, if_pos rfl]
      congr 1
      apply List.map_congr_left
      intro k hk2
      have hne : ¬ k = k0 := fun he => hk0 (he ▸ hk2)
      rw [if_neg hne]
    · rcases List.mem_cons.mp hb with rfl | hb2
      · exact absurd rfl hk
      · have h1 : degDec ((k0, F k0) :: K.map (fun k => (k, F k))) b =
            (k0, F k0) :: degDec (K.map (fun k => (k, F k))) b := by
          simp [degDec, hk]
        rw [List.map_cons, h1, List.map_cons, if_neg hk]
        rw [ih hKnd hb2]

theorem kahnEdge_map {K : List String} (hK : K.Nodup) (F : String → Int)
    (acc : List String) {b : String} (hb : b ∈ K) :
    kahnEdge (K.map (fun k => (k, F k)), acc) b =
      (K.map (fun k => (k, if k = b then F k - 1 else F k)),
       if F b - 1 = 0 then acc ++ [b] else acc) := by
  unfold kahnEdge
  rw [degLookup_map_eq K F hb]
  simp only
  rw [degDec_map hK F hb]
  by_cases hz : F b - 1 = 0
  · rw [if_pos hz, if_pos hz]
  · rw [if_neg hz, if_neg hz]

theorem degWeight_degDec {d : List (String × Int)} {b : String} {v : Int}
    (h : degLookup d b = some v) :
    degWeight (degDec d b) + v.toNat = degWeight d + (v - 1).toNat := by
  induction d with
  | nil => simp [degLookup] at h
  | cons p ps ih =>
    by_cases hp : p.1 = b
    · have hbeq : (p.1 == b) = true := by simp [hp]
      have hfind : degLookup (p :: ps) b = some p.2 := by
        simp [degLookup, List.find?, hbeq]
      rw [h] at hfind
      injection hfind with hv
      subst hv
      have hdec : degDec (p :: ps) b = (p.1, p.2 - 1) :: ps := by
        simp [degDec, hbeq]
      rw [hdec]
      unfold degWeight
      simp only [List.map_cons, List.sum_cons]
      omega
    · have hbeq : (p.1 == b) = false := by simp [hp]
      have hstep : degLookup (p :: ps) b = degLookup ps b := by
        simp [degLookup, List.find?, hbeq]
      rw [hstep] at h
      have hih := ih h
      have hdec : degDec (p :: ps) b = p :: degDec ps b := by
        simp [degDec, hbeq]
      rw [hdec]
      unfold degWeight at hih ⊢
      simp only [List.map_cons, List.sum_cons]
      omega

theorem kahnEdge_measure (st : List (String × Int) × List String) (b : String) :
    degWeight (kahnEdge st b).1 + (kahnEdge st b).2.length ≤
      degWeight st.1 + st.2.length := by
  unfold kahnEdge
  cases hl : degLookup st.1 b with
  | none => simp
  | some v =>
    simp only
    have hw := degWeight_degDec hl
    by_cases hz : v - 1 = 0
    · rw [if_pos hz]
      simp only [List.length_append, List.length_cons, List.length_nil]
      have hv1 : v = 1 := by omega
      subst hv1
      simp at hw
      omega
    · rw [if_neg hz]
      simp only
      have htoN : (v - 1).toNat ≤ v.toNat := Int.toNat_le_toNat (by omega)
      omega

theorem foldl_kahnEdge_measure (es : List String) :
    ∀ st, degWeight (es.foldl kahnEdge st).1 + (es.foldl kahnEdge st).2.length ≤
      degWeight st.1 + st.2.length := by
  induction es with
  | nil => intro st; simp
  | cons b es ih =>
    intro st
    rw [List.foldl_cons]
    exact le_trans (ih (kahnEdge st b)) (kahnEdge_measure st b)

theorem kahnLevelStep_eq_foldl (adj : String → List String) (q : List String)
    (d : List (String × Int)) :
    kahnLevelStep adj q d = (q.flatMap adj).foldl kahnEdge (d, []) := by
  unfold kahnLevelStep
  suffices h : ∀ (q2 : List String) (st : List (String × Int) × List String),
      q2.foldl (kahnNode adj) st = (q2.flatMap adj).foldl kahnEdge st by
    exact h q (d, [])
  intro q2
  induction q2 with
  | nil => intro st; simp
  | cons a q2 ih =>
    intro st
    rw [List.foldl_cons, List.flatMap_cons, List.foldl_append, ih]
    rfl

theorem kahnLevelStep_measure (adj : String → List String) {q : List String}
    (hq : q ≠ []) (d : List (String × Int)) :
    kahnMeasure (kahnLevelStep adj q d).1 (kahnLevelStep adj q d).2 <
      kahnMeasure d q := by
  rw [kahnLevelStep_eq_foldl]
  unfold kahnMeasure
  have h := foldl_kahnEdge_measure (q.flatMap adj) (d, [])
  simp only [List.length_nil] at h
  have hq2 : 0 < q.length := List.length_pos.mpr hq
  omega

theorem count_map_const {l : List String} (c x : String) :
    ((l.map (fun _ => c)).count x) = if c = x then l.length else 0 := by
  induction l with
  | nil => simp
  | cons a l ih =>
    simp only [List.map_cons, List.count_cons, ih]
    by_cases hc : c = x
    · simp [hc]
    · simp [hc, fun h => hc (by simpa using h)]

theorem count_flatMap_general {α : Type} (f : α → List String) (x : String) :
    ∀ l : List α, ((l.flatMap f).count x) = (l.map (fun t => (f t).count x)).sum := by
  intro l
  induction l with
  | nil => simp
  | cons a l ih =>
    rw [List.flatMap_cons, List.count_append, ih]
    simp

theorem sum_ind {K : List String} (hK : K.Nodup) (a : String) :
    (K.map (fun k => if a = k then 1 else 0)).sum = if a ∈ K then 1 else 0 := by
  induction K with
  | nil => simp
  | cons k0 K ih =>
    rcases List.nodup_cons.mp hK with ⟨hk0, hKnd⟩
    simp only [List.map_cons, List.sum_cons]
    by_cases ha : a = k0
    · subst ha
      rw [if_pos rfl, if_pos (List.mem_cons_self a K)]
      have : (K.map (fun k => if a = k then 1 else 0)).sum = 0 := by
        rw [ih hKnd]
        simp [hk0]
      omega
    · rw [if_neg ha, ih hKnd]
      by_cases hmem : a ∈ K
      · rw [if_pos hmem, if_pos (List.mem_cons.mpr (Or.inr hmem))]
      · rw [if_neg hmem, if_neg (by simp [ha, hmem])]

theorem sum_count_eq_filter_length {K : List String} (hK : K.Nodup) (l : List String) :
    (K.map (fun k => l.count k)).sum = (l.filter (fun d => decide (d ∈ K))).length := by
  induction l with
  | nil => simp
  | cons a l ih =>
    have hcnt : ∀ k, (a :: l).count k = l.count k + (if a = k then 1 else 0) := by
      intro k
      simp [List.count_cons, beq_iff_eq]
    have hmap : K.map (fun k => (a :: l).count k) =
        K.map (fun k => l.count k + (if a = k then 1 else 0)) := by
      apply List.map_congr_left
      intro k _
      exact hcnt k
    rw [hmap, List.sum_map_add, ih, sum_ind hK a]
    by_cases hmem : a ∈ K
    · rw [List.filter_cons_of_pos (by simpa using hmem), if_pos hmem]
      simp
    · rw [List.filter_cons_of_neg (by simpa using hmem), if_neg hmem]
      omega

theorem filter_map_sum {α : Type} (p : α → Bool) (f : α → Nat) (l : List α) :
    ((l.filter p).map f).sum = (l.map (fun t => if p t then f t else 0)).sum := by
  induction l with
  | nil => simp
  | cons a l ih =>
    by_cases hp : p a = true
    · rw [List.filter_cons_of_pos hp]
      simp only [List.map_cons, List.sum_cons, ih, if_pos hp]
    · rw [List.filter_cons_of_neg hp]
      simp only [List.map_cons, List.sum_cons, ih, if_neg hp]
      omega

theorem sum_map_swap (g : String → TaskNode → Nat) (tasks : List TaskNode) :
    ∀ K : List String,
      (K.map (fun k => (tasks.map (fun t => g k t)).sum)).sum =
      (tasks.map (fun t => (K.map (fun k => g k t)).sum)).sum := by
  intro K
  induction K with
  | nil => simp
  | cons k0 K ih =>
    simp only [List.map_cons, List.sum_cons, ih]
    rw [← List.sum_map_add]

theorem count_adjacency (tasks : List TaskNode) {k : String} (hk : isKeyP tasks k)
    (x : String) :
    (adjacency tasks k).count x =
      (tasks.map (fun t => if t.task_id = x then t.dependencies.count k else 0)).sum := by
  unfold adjacency
  rw [if_pos ((isKeyB_iff tasks k).mpr hk)]
  rw [count_flatMap_general]
  apply congrArg
  apply List.map_congr_left
  intro t _
  rw [count_map_const]
  by_cases hid : t.task_id = x
  · rw [if_pos hid, if_pos hid]
    rw [List.count_eq_countP, List.countP_eq_length_filter]
  · rw [if_neg hid, if_neg hid]

theorem isKeyB_eq_decide (tasks : List TaskNode) (d : String) :
    isKeyB tasks d = decide (d ∈ graphKeys tasks) := by
  by_cases h : isKeyP tasks d
  · rw [(isKeyB_iff tasks d).mpr h]
    simp [mem_graphKeys, h]
  · have h1 : isKeyB tasks d = false := by
      cases hb : isKeyB tasks d
      · rfl
      · exact absurd ((isKeyB_iff tasks d).mp hb) h
    rw [h1]
    simp [mem_graphKeys, h]

theorem inCount_eq_inFrom (tasks : List TaskNode) (x : String) :
    inCount tasks x = inFrom (adjacency tasks) (graphKeys tasks) x := by
  unfold inFrom
  have hmap : (graphKeys tasks).map (fun p => (adjacency tasks p).count x) =
      (graphKeys tasks).map (fun k =>
        (tasks.map (fun t => if t.task_id = x then t.dependencies.count k else 0)).sum) := by
    apply List.map_congr_left
    intro k hkmem
    exact count_adjacency tasks (mem_graphKeys.mp hkmem) x
  rw [hmap, sum_map_swap]
  unfold inCount
  rw [filter_map_sum (fun t => t.task_id == x)
    (fun t => (t.dependencies.filter (fun d => isKeyB tasks d)).length) tasks]
  symm
  apply congrArg
  apply List.map_congr_left
  intro t _
  by_cases hid : t.task_id = x
  · have hb : (t.task_id == x) = true := by simpa using hid
    rw [if_pos hb]
    have hmapc : (graphKeys tasks).map
          (fun k => if t.task_id = x then t.dependencies.count k else 0) =
        (graphKeys tasks).map (fun k => t.dependencies.count k) := by
      apply List.map_congr_left
      intro k _
      rw [if_pos hid]
    rw [hmapc, sum_count_eq_filter_length (graphKeys_nodup tasks)]
    congr 1
    apply List.filter_congr
    intro d _
    rw [isKeyB_eq_decide]
  · have hb : (t.task_id == x) = false := by simpa using hid
    rw [if_neg (by simp [hb])]
    have hmapc : (graphKeys tasks).map
          (fun k => if t.task_id = x then t.dependencies.count k else 0) =
        (graphKeys tasks).map (fun _ => 0) := by
      apply List.map_congr_left
      intro k _
      rw [if_neg hid]
    rw [hmapc]
    simp

theorem kahnFold_step (adj : String → List String) (K : List String)
    (hK : K.Nodup) (hadjK : ∀ a b, b ∈ adj a → b ∈ K)
    (P q : List String)
    (hPQsub : ∀ x ∈ P ++ q, x ∈ K) (hPQnd : (P ++ q).Nodup)
    (hzero : ∀ x ∈ K, ((inFrom adj K x : Int) - inFrom adj P x = 0 ↔ x ∈ P ++ q)) :
    ∀ (E2 E1 acc : List String),
      q.flatMap adj = E1 ++ E2 →
      (∀ x, x ∈ acc ↔ (x ∈ K ∧ x ∉ P ++ q ∧
        (inFrom adj K x : Int) - inFrom adj P x - E1.count x = 0)) →
      acc.Nodup →
      ∃ accF,
        E2.foldl kahnEdge
          (K.map (fun k => (k, (inFrom adj K k : Int) - inFrom adj P k - E1.count k)), acc)
          = (K.map (fun k =>
              (k, (inFrom adj K k : Int) - inFrom adj P k - (E1 ++ E2).count k)), accF)
        ∧ (∀ x, x ∈ accF ↔ (x ∈ K ∧ x ∉ P ++ q ∧
            (inFrom adj K x : Int) - inFrom adj P x - (E1 ++ E2).count x = 0))
        ∧ accF.Nodup := by
  intro E2
  induction E2 with
  | nil =>
    intro E1 acc hsplit hacc haccnd
    refine ⟨acc, ?_, ?_, haccnd⟩
    · rw [List.append_nil, List.foldl_nil]
    · rw [List.append_nil]
      exact hacc
  | cons b E2 ih =>
    intro E1 acc hsplit hacc haccnd
    have hbE : b ∈ q.flatMap adj := by
      rw [hsplit]
      exact List.mem_append.mpr (Or.inr (List.mem_cons_self b E2))
    have hbK : b ∈ K := by
      rcases List.mem_flatMap.mp hbE with ⟨y, hy, hb⟩
      exact hadjK y b hb
    have hbound : ∀ x, inFrom adj P x + (q.flatMap adj).count x ≤ inFrom adj K x := by
      intro x
      rw [count_flatMap, ← inFrom_append]
      exact inFrom_le hPQnd hPQsub x
    have hEcnt : E1.count b + 1 ≤ (q.flatMap adj).count b := by
      rw [hsplit, List.count_append, List.count_cons]
      simp
    have hFbpos : 1 ≤ (inFrom adj K b : Int) - inFrom adj P b - E1.count b := by
      have h1 := hbound b
      omega
    have hbnacc : b ∉ acc := by
      intro hmem
      have h1 := ((hacc b).mp hmem).2.2
      omega
    have heq : kahnEdge
        (K.map (fun k => (k, (inFrom adj K k : Int) - inFrom adj P k - E1.count k)), acc) b
        = (K.map (fun k =>
            (k, (inFrom adj K k : Int) - inFrom adj P k - (E1 ++ [b]).count k)),
           if ((inFrom adj K b : Int) - inFrom adj P b - E1.count b) - 1 = 0
           then acc ++ [b] else acc) := by
      rw [kahnEdge_map hK (fun k => (inFrom adj K k : Int) - inFrom adj P k - E1.count k)
        acc hbK]
      congr 1
      apply List.map_congr_left
      intro k _
      by_cases hkb : k = b
      · subst hkb
        rw [if_pos rfl]
        have hc : (E1 ++ [k]).count k = E1.count k + 1 := by
          rw [List.count_append]
          simp
        rw [hc]
        push_cast
        ring
      · rw [if_neg hkb]
        have hc : (E1 ++ [b]).count k = E1.count k := by
          rw [List.count_append]
          have : [b].count k = 0 := by
            simp [List.count_cons]
            exact fun he => hkb he.symm
          omega
        rw [hc]
    have hsplit2 : q.flatMap adj = (E1 ++ [b]) ++ E2 := by
      rw [hsplit, List.append_assoc]
      rfl
    rw [List.foldl_cons, heq]
    by_cases hz : ((inFrom adj K b : Int) - inFrom adj P b - E1.count b) - 1 = 0
    · rw [if_pos hz]
      have hbnPQ : b ∉ P ++ q := by
        intro hmem
        have h0 := (hzero b hbK).mpr hmem
        omega
      have hacc2 : ∀ x, x ∈ acc ++ [b] ↔ (x ∈ K ∧ x ∉ P ++ q ∧
          (inFrom adj K x : Int) - inFrom adj P x - (E1 ++ [b]).count x = 0) := by
        intro x
        rw [List.mem_append]
        constructor
        · rintro (hmem | hmem)
          · obtain ⟨h1, h2, h3⟩ := (hacc x).mp hmem
            have hxb : x ≠ b := by
              intro he
              subst he
              omega
            refine ⟨h1, h2, ?_⟩
            rw [List.count_append]
            have hc0 : [b].count x = 0 := by
              simp [List.count_cons]
              exact fun he => hxb he.symm
            omega
          · have hxb : x = b := by simpa using hmem
            subst hxb
            refine ⟨hbK, hbnPQ, ?_⟩
            rw [List.count_append]
            have hc1 : [x].count x = 1 := by simp
            omega
        · rintro ⟨h1, h2, h3⟩
          by_cases hxb : x = b
          · exact Or.inr (by simp [hxb])
          · left
            rw [hacc x]
            refine ⟨h1, h2, ?_⟩
            rw [List.count_append] at h3
            have hc0 : [b].count x = 0 := by
              simp [List.count_cons]
              exact fun he => hxb he.symm
            omega
      have haccnd2 : (acc ++ [b]).Nodup := by
        rw [List.nodup_append]
        exact ⟨haccnd, List.nodup_singleton b, by
          intro x hx hb2
          have hxb : x = b := by simpa using hb2
          exact hbnacc (hxb ▸ hx)⟩
      obtain ⟨accF, hfold, haccF, haccFnd⟩ := ih (E1 ++ [b]) (acc ++ [b]) hsplit2 hacc2 haccnd2
      refine ⟨accF, ?_, ?_, haccFnd⟩
      · rw [hfold]
        have hLeq : (E1 ++ [b]) ++ E2 = E1 ++ b :: E2 := by
          rw [List.append_assoc]
          rfl
        rw [hLeq]
      · intro x
        rw [haccF x]
        have hLeq : (E1 ++ [b]) ++ E2 = E1 ++ b :: E2 := by
          rw [List.append_assoc]
          rfl
        rw [hLeq]
    · rw [if_neg hz]
      have hacc2 : ∀ x, x ∈ acc ↔ (x ∈ K ∧ x ∉ P ++ q ∧
          (inFrom adj K x : Int) - inFrom adj P x - (E1 ++ [b]).count x = 0) := by
        intro x
        by_cases hxb : x = b
        · subst hxb
          constructor
          · intro hmem
            exact absurd hmem hbnacc
          · rintro ⟨h1, h2, h3⟩
            rw [List.count_append] at h3
            have hc1 : [x].count x = 1 := by simp
            omega
        · rw [hacc x]
          have hc0 : (E1 ++ [b]).count x = E1.count x := by
            rw [List.count_append]
            have : [b].count x = 0 := by
              simp [List.count_cons]
              exact fun he => hxb he.symm
            omega
          rw [hc0]
      obtain ⟨accF, hfold, haccF, haccFnd⟩ := ih (E1 ++ [b]) acc hsplit2 hacc2 haccnd
      refine ⟨accF, ?_, ?_, haccFnd⟩
      · rw [hfold]
        have hLeq : (E1 ++ [b]) ++ E2 = E1 ++ b :: E2 := by
          rw [List.append_assoc]
          rfl
        rw [hLeq]
      · intro x
        rw [haccF x]
        have hLeq : (E1 ++ [b]) ++ E2 = E1 ++ b :: E2 := by
          rw [List.append_assoc]
          rfl
        rw [hLeq]

theorem kahnLevelStep_inv (adj : String → List String) (K : List String)
    (hK : K.Nodup) (hadjK : ∀ a b, b ∈ adj a → b ∈ K)
    (P q : List String)
    (hPQsub : ∀ x ∈ P ++ q, x ∈ K) (hPQnd : (P ++ q).Nodup)
    (hzero : ∀ x ∈ K, ((inFrom adj K x : Int) - inFrom adj P x = 0 ↔ x ∈ P ++ q)) :
    ∃ q2, kahnLevelStep adj q
        (K.map (fun k => (k, (inFrom adj K k : Int) - inFrom adj P k)))
        = (K.map (fun k => (k, (inFrom adj K k : Int) - inFrom adj (P ++ q) k)), q2)
      ∧ (∀ x, x ∈ q2 ↔ (x ∈ K ∧ x ∉ P ++ q ∧
          (inFrom adj K x : Int) - inFrom adj (P ++ q) x = 0))
      ∧ q2.Nodup := by
  rw [kahnLevelStep_eq_foldl]
  have hacc0 : ∀ x, x ∈ ([] : List String) ↔ (x ∈ K ∧ x ∉ P ++ q ∧
      (inFrom adj K x : Int) - inFrom adj P x - ([] : List String).count x = 0) := by
    intro x
    simp only [List.not_mem_nil, false_iff, List.count_nil]
    rintro ⟨h1, h2, h3⟩
    apply h2
    exact (hzero x h1).mp (by omega)
  have hmap0 : K.map (fun k => (k, (inFrom adj K k : Int) - inFrom adj P k))
      = K.map (fun k =>
          (k, (inFrom adj K k : Int) - inFrom adj P k - ([] : List String).count k)) := by
    apply List.map_congr_left
    intro k _
    simp
  obtain ⟨accF, hfold, haccF, haccFnd⟩ := kahnFold_step adj K hK hadjK P q hPQsub hPQnd hzero
    (q.flatMap adj) [] [] (by simp) hacc0 List.nodup_nil
  refine ⟨accF, ?_, ?_, haccFnd⟩
  · rw [hmap0, hfold]
    congr 1
    apply List.map_congr_left
    intro k _
    have hc : (([] : List String) ++ q.flatMap adj).count k = inFrom adj q k := by
      rw [List.nil_append, count_flatMap]
    rw [hc, inFrom_append]
    push_cast
    ring
  · intro x
    rw [haccF x]
    have hc : (([] : List String) ++ q.flatMap adj).count x = inFrom adj q x := by
      rw [List.nil_append, count_flatMap]
    rw [hc, inFrom_append]
    constructor
    · rintro ⟨a, b2, c⟩
      refine ⟨a, b2, by push_cast at c ⊢; omega⟩
    · rintro ⟨a, b2, c⟩
      refine ⟨a, b2, by push_cast at c ⊢; omega⟩

/-- The loop invariant of `get_execution_order`: popped ids `P` and queue `q`
are keys, pairwise distinct, and an id has current in-degree zero exactly
when it has been popped or enqueued. -/
def KahnInv (adj : String → List String) (K P q : List String) : Prop :=
  (∀ x ∈ P ++ q, x ∈ K) ∧ (P ++ q).Nodup ∧
  (∀ x ∈ K, ((inFrom adj K x : Int) - inFrom adj P x = 0 ↔ x ∈ P ++ q))

theorem kahnInv_next (adj : String → List String) (K : List String)
    {P q q2 : List String} (hinv : KahnInv adj K P q)
    (hq2 : ∀ x, x ∈ q2 ↔ (x ∈ K ∧ x ∉ P ++ q ∧
      (inFrom adj K x : Int) - inFrom adj (P ++ q) x = 0))
    (hq2nd : q2.Nodup) : KahnInv adj K (P ++ q) q2 := by
  obtain ⟨hsub, hnd, hz⟩ := hinv
  refine ⟨?_, ?_, ?_⟩
  · intro x hx
    rcases List.mem_append.mp hx with hx1 | hx2
    · exact hsub x hx1
    · exact ((hq2 x).mp hx2).1
  · rw [List.nodup_append]
    refine ⟨hnd, hq2nd, fun a ha ha2 => ?_⟩
    exact ((hq2 a).mp ha2).2.1 ha
  · intro x hxK
    constructor
    · intro hd0
      by_cases hx : x ∈ P ++ q
      · exact List.mem_append.mpr (Or.inl hx)
      · exact List.mem_append.mpr (Or.inr ((hq2 x).mpr ⟨hxK, hx, hd0⟩))
    · intro hx
      rcases List.mem_append.mp hx with hx1 | hx2
      · have h0 := (hz x hxK).mpr hx1
        have hle := @inFrom_le adj _ K hnd hsub x
        rw [inFrom_append] at hle ⊢
        omega
      · exact ((hq2 x).mp hx2).2.2

theorem level_src_popped (adj : String → List String) (K : List String)
    (hsrcK : ∀ a b, b ∈ adj a → a ∈ K) {P q : List String}
    (hinv : KahnInv adj K P q) :
    ∀ x ∈ q, ∀ y, x ∈ adj y → y ∈ P := by
  obtain ⟨hsub, hnd, hz⟩ := hinv
  intro x hx y hxy
  have hxK : x ∈ K := hsub x (List.mem_append.mpr (Or.inr hx))
  have hd0 : (inFrom adj K x : Int) - inFrom adj P x = 0 :=
    (hz x hxK).mpr (List.mem_append.mpr (Or.inr hx))
  by_contra hyP
  have hyK : y ∈ K := hsrcK y x hxy
  have hnd2 : (P ++ [y]).Nodup := by
    rw [List.nodup_append]
    refine ⟨List.Nodup.of_append_left hnd, List.nodup_singleton y, fun a ha ha2 => ?_⟩
    have : a = y := by simpa using ha2
    exact hyP (this ▸ ha)
  have hsub2 : ∀ a ∈ P ++ [y], a ∈ K := by
    intro a ha
    rcases List.mem_append.mp ha with h1 | h2
    · exact hsub a (List.mem_append.mpr (Or.inl h1))
    · have : a = y := by simpa using h2
      exact this ▸ hyK
  have hle := @inFrom_le adj _ K hnd2 hsub2 x
  rw [inFrom_append] at hle
  have hcnt : 1 ≤ inFrom adj [y] x := by
    unfold inFrom
    simp only [List.map_cons, List.map_nil, List.sum_cons, List.sum_nil]
    have := List.count_pos_iff_mem.mpr hxy
    omega
  omega

theorem kahnLoopF_spec (adj : String → List String) (K : List String)
    (hK : K.Nodup) (hadjK : ∀ a b, b ∈ adj a → b ∈ K)
    (hsrcK : ∀ a b, b ∈ adj a → a ∈ K) :
    ∀ (n fuel : Nat) (P q : List String),
      kahnMeasure (K.map (fun k => (k, (inFrom adj K k : Int) - inFrom adj P k))) q ≤ n →
      n < fuel → KahnInv adj K P q →
      ∀ L, L = kahnLoopF adj fuel
          (K.map (fun k => (k, (inFrom adj K k : Int) - inFrom adj P k))) q →
      ((P ++ L.flatten).Nodup ∧
       (∀ x ∈ L.flatten, x ∈ K) ∧
       (∀ x ∈ K, x ∉ P ++ L.flatten →
          ¬ ((inFrom adj K x : Int) - inFrom adj (P ++ L.flatten) x = 0)) ∧
       (∀ i lvl, L.get? i = some lvl → ∀ x ∈ lvl, ∀ y, x ∈ adj y →
          (y ∈ P ∨ ∃ j lvl2, j < i ∧ L.get? j = some lvl2 ∧ y ∈ lvl2))) := by
  intro n
  induction n using Nat.strong_induction_on with
  | _ n ih =>
    intro fuel P q hmeas hfuel hinv L hL
    obtain ⟨hsub, hnd, hz⟩ := hinv
    cases fuel with
    | zero => omega
    | succ f =>
      cases q with
      | nil =>
        have hLnil : L = [] := by
          rw [hL]
          simp [kahnLoopF]
        subst hLnil
        refine ⟨?_, ?_, ?_, ?_⟩
        · simpa using hnd
        · intro x hx
          simp at hx
        · intro x hxK hxP
          rw [List.flatten_nil, List.append_nil] at hxP
          intro hd0
          have := (hz x hxK).mp (by simpa using hd0)
          rw [List.append_nil] at this
          exact hxP (by simpa using this)
        · intro i lvl hget
          simp at hget
      | cons a q3 =>
        obtain ⟨q2, hstep, hq2, hq2nd⟩ :=
          kahnLevelStep_inv adj K hK hadjK P (a :: q3) hsub hnd hz
        have hL2 : L = (a :: q3) :: kahnLoopF adj f
            (K.map (fun k => (k, (inFrom adj K k : Int) - inFrom adj (P ++ a :: q3) k))) q2 := by
          rw [hL]
          simp only [kahnLoopF]
          rw [hstep]
        have hmeas2 : kahnMeasure
            (K.map (fun k => (k, (inFrom adj K k : Int) - inFrom adj (P ++ a :: q3) k))) q2 <
            kahnMeasure (K.map (fun k => (k, (inFrom adj K k : Int) - inFrom adj P k)))
              (a :: q3) := by
          have := kahnLevelStep_measure adj (q := a :: q3) (by simp)
            (K.map (fun k => (k, (inFrom adj K k : Int) - inFrom adj P k)))
          rw [hstep] at this
          exact this
        have hinv2 : KahnInv adj K (P ++ a :: q3) q2 :=
          kahnInv_next adj K ⟨hsub, hnd, hz⟩ hq2 hq2nd
        set rest := kahnLoopF adj f
          (K.map (fun k => (k, (inFrom adj K k : Int) - inFrom adj (P ++ a :: q3) k))) q2
          with hrest
        have hm2n : kahnMeasure
            (K.map (fun k => (k, (inFrom adj K k : Int) - inFrom adj (P ++ a :: q3) k))) q2
            < n := lt_of_lt_of_le hmeas2 hmeas
        obtain ⟨ha2, hb2, hc2, hd2⟩ := ih _ hm2n f (P ++ a :: q3) q2 (le_refl _)
          (by omega) hinv2 rest hrest
        have hflat : L.flatten = (a :: q3) ++ rest.flatten := by
          rw [hL2]
          simp
        refine ⟨?_, ?_, ?_, ?_⟩
        · rw [hflat, ← List.append_assoc]
          exact ha2
        · intro x hx
          rw [hflat] at hx
          rcases List.mem_append.mp hx with h1 | h2
          · exact hsub x (List.mem_append.mpr (Or.inr h1))
          · exact hb2 x h2
        · intro x hxK hxP
          rw [hflat, ← List.append_assoc] at hxP
          rw [hflat, ← List.append_assoc]
          exact hc2 x hxK hxP
        · intro i lvl hget x hx y hxy
          rw [hL2] at hget
          cases i with
          | zero =>
            simp only [List.get?] at hget
            injection hget with hlvl
            subst hlvl
            exact Or.inl (level_src_popped adj K hsrcK ⟨hsub, hnd, hz⟩ x hx y hxy)
          | succ i2 =>
            simp only [List.get?] at hget
            rcases hd2 i2 lvl hget x hx y hxy with hyP | ⟨j, lvl2, hj, hget2, hy2⟩
            · rcases List.mem_append.mp hyP with h1 | h2
              · exact Or.inl h1
              · refine Or.inr ⟨0, a :: q3, Nat.succ_pos i2, ?_, h2⟩
                rw [hL2]
                rfl
            · refine Or.inr ⟨j + 1, lvl2, by omega, ?_, hy2⟩
              rw [hL2]
              simpa using hget2

theorem find?_append_some {α : Type} {l1 l2 : List α} {p : α → Bool} {a : α}
    (h : l1.find? p = some a) : (l1 ++ l2).find? p = some a := by
  induction l1 with
  | nil => simp [List.find?] at h
  | cons b l1 ih =>
    rw [List.cons_append]
    rw [List.find?] at h ⊢
    cases hp : p b
    · rw [hp] at h
      simp only at h ⊢
      exact ih h
    · rw [hp] at h
      simpa using h

theorem find?_append_none {α : Type} {l1 l2 : List α} {p : α → Bool}
    (h : l1.find? p = none) : (l1 ++ l2).find? p = l2.find? p := by
  induction l1 with
  | nil => simp
  | cons b l1 ih =>
    rw [List.find?] at h
    rw [show (b :: l1 ++ l2) = b :: (l1 ++ l2) from rfl, List.find?]
    cases hp : p b
    · rw [hp] at h
      simp only at h ⊢
      exact ih h
    · rw [hp] at h
      simp at h

theorem find?_eq_none_of_all {α : Type} {l : List α} {p : α → Bool}
    (h : ∀ x ∈ l, p x = false) : l.find? p = none := by
  induction l with
  | nil => rfl
  | cons b l ih =>
    rw [List.find?]
    rw [h b (List.mem_cons_self b l)]
    exact ih (fun x hx => h x (List.mem_cons.mpr (Or.inr hx)))

theorem task_map_get_eq {tasks : List TaskNode} (h : NodupIds tasks) :
    ∀ t ∈ tasks, task_map_get tasks t.task_id = some t := by
  induction tasks with
  | nil => intro t ht; simp at ht
  | cons a ts ih =>
    intro t ht
    have hnd := h
    unfold NodupIds at hnd
    rw [List.map_cons, List.nodup_cons] at hnd
    obtain ⟨hida, hndt⟩ := hnd
    unfold task_map_get
    rw [List.reverse_cons]
    rcases List.mem_cons.mp ht with rfl | ht2
    · have hnone : ts.reverse.find? (fun t2 => t2.task_id == t.task_id) = none := by
        apply find?_eq_none_of_all
        intro x hx
        have hxmem : x ∈ ts := List.mem_reverse.mp hx
        have : x.task_id ≠ t.task_id := by
          intro he
          exact hida (he ▸ List.mem_map.mpr ⟨x, hxmem, rfl⟩)
        simpa using this
      rw [find?_append_none hnone]
      simp [List.find?]
    · have hfound := ih hndt t ht2
      unfold task_map_get at hfound
      exact find?_append_some hfound

theorem theTask_mem_eq {tasks : List TaskNode} (h : NodupIds tasks) {t : TaskNode}
    (ht : t ∈ tasks) : theTask tasks t.task_id = t := by
  unfold theTask
  rw [task_map_get_eq h t ht]
  rfl

theorem task_map_get_id {tasks : List TaskNode} {id : String} {t : TaskNode}
    (h : task_map_get tasks id = some t) : t.task_id = id ∧ t ∈ tasks := by
  unfold task_map_get at h
  have h1 := List.find?_some h
  have h2 := List.mem_reverse.mp (List.mem_of_find?_eq_some h)
  exact ⟨by simpa using h1, h2⟩

theorem task_map_get_isSome {tasks : List TaskNode} {id : String}
    (h : isKeyP tasks id) : ∃ t, task_map_get tasks id = some t := by
  cases hm : task_map_get tasks id with
  | some t => exact ⟨t, rfl⟩
  | none =>
    exfalso
    unfold task_map_get at hm
    rcases List.mem_map.mp h with ⟨t, ht, hid⟩
    have := List.find?_eq_none.mp hm t (List.mem_reverse.mpr ht)
    simp [hid] at this

theorem theTask_id {tasks : List TaskNode} {id : String} (h : isKeyP tasks id) :
    (theTask tasks id).task_id = id := by
  obtain ⟨t, hget⟩ := task_map_get_isSome h
  unfold theTask
  rw [hget]
  exact (task_map_get_id hget).1

theorem theTask_mem {tasks : List TaskNode} {id : String} (h : isKeyP tasks id) :
    theTask tasks id ∈ tasks := by
  obtain ⟨t, hget⟩ := task_map_get_isSome h
  unfold theTask
  rw [hget]
  exact (task_map_get_id hget).2

theorem mem_kahnQueue0 {tasks : List TaskNode} {x : String} :
    x ∈ kahnQueue0 tasks ↔ (x ∈ graphKeys tasks ∧ inCount tasks x = 0) := by
  unfold kahnQueue0 initDeg
  constructor
  · intro hx
    rcases List.mem_map.mp hx with ⟨p, hp, hpx⟩
    rcases List.mem_filter.mp hp with ⟨hpm, hpz⟩
    rcases List.mem_map.mp hpm with ⟨k, hk, hkp⟩
    subst hkp
    have hkx : k = x := by simpa using hpx
    subst hkx
    refine ⟨hk, ?_⟩
    have hz2 : (inCount tasks k : Int) = 0 := by simpa using hpz
    omega
  · rintro ⟨hk, hz⟩
    apply List.mem_map.mpr
    refine ⟨(x, (inCount tasks x : Int)), ?_, rfl⟩
    apply List.mem_filter.mpr
    refine ⟨List.mem_map.mpr ⟨x, hk, rfl⟩, ?_⟩
    rw [hz]
    rfl

theorem kahnQueue0_nodup (tasks : List TaskNode) : (kahnQueue0 tasks).Nodup := by
  unfold kahnQueue0 initDeg
  have hsub : ((((graphKeys tasks).map (fun k => (k, (inCount tasks k : Int)))).filter
      (fun p => p.2 == 0)).map (fun p => p.1)).Sublist
      ((((graphKeys tasks).map (fun k => (k, (inCount tasks k : Int))))).map (fun p => p.1)) :=
    List.Sublist.map _ (List.filter_sublist _)
  have hmapid : (((graphKeys tasks).map (fun k => (k, (inCount tasks k : Int))))).map
      (fun p => p.1) = graphKeys tasks := by
    rw [List.map_map]
    exact List.map_id _
  have hsub2 := hsub
  rw [hmapid] at hsub2
  exact List.Nodup.sublist hsub2 (graphKeys_nodup tasks)

theorem kahnLevels_spec (tasks : List TaskNode) :
    ((kahnLevels tasks).flatten.Nodup) ∧
    (∀ x ∈ (kahnLevels tasks).flatten, isKeyP tasks x) ∧
    (∀ x ∈ graphKeys tasks, x ∉ (kahnLevels tasks).flatten →
      ¬ ((inFrom (adjacency tasks) (graphKeys tasks) x : Int)
          - inFrom (adjacency tasks) ((kahnLevels tasks).flatten) x = 0)) ∧
    (∀ i lvl, (kahnLevels tasks).get? i = some lvl → ∀ x ∈ lvl, ∀ y,
      x ∈ adjacency tasks y →
      ∃ j lvl2, j < i ∧ (kahnLevels tasks).get? j = some lvl2 ∧ y ∈ lvl2) := by
  have hK := graphKeys_nodup tasks
  have hadjK : ∀ a b, b ∈ adjacency tasks a → b ∈ graphKeys tasks :=
    fun a b hb => mem_graphKeys.mpr (adjacency_target_key hb)
  have hsrcK : ∀ a b, b ∈ adjacency tasks a → a ∈ graphKeys tasks :=
    fun a b hb => mem_graphKeys.mpr (mem_adjacency.mp hb).1
  have hfrom0 : ∀ x, inFrom (adjacency tasks) [] x = 0 := by
    intro x
    simp [inFrom]
  have hdeg0 : initDeg tasks = (graphKeys tasks).map
      (fun k => (k, (inFrom (adjacency tasks) (graphKeys tasks) k : Int)
        - inFrom (adjacency tasks) [] k)) := by
    unfold initDeg
    apply List.map_congr_left
    intro k _
    rw [inCount_eq_inFrom, hfrom0]
    simp
  have hinv0 : KahnInv (adjacency tasks) (graphKeys tasks) [] (kahnQueue0 tasks) := by
    refine ⟨?_, ?_, ?_⟩
    · intro x hx
      rw [List.nil_append] at hx
      exact (mem_kahnQueue0.mp hx).1
    · rw [List.nil_append]
      exact kahnQueue0_nodup tasks
    · intro x hxK
      rw [List.nil_append, hfrom0]
      constructor
      · intro hd
        apply mem_kahnQueue0.mpr
        refine ⟨hxK, ?_⟩
        rw [inCount_eq_inFrom]
        omega
      · intro hq
        have h0 := (mem_kahnQueue0.mp hq).2
        rw [inCount_eq_inFrom] at h0
        omega
  have hLdef : kahnLevels tasks = kahnLoopF (adjacency tasks)
      (kahnMeasure (initDeg tasks) (kahnQueue0 tasks) + 1) (initDeg tasks)
      (kahnQueue0 tasks) := rfl
  rw [hdeg0] at hLdef
  obtain ⟨ha, hb, hc, hd⟩ := kahnLoopF_spec (adjacency tasks) (graphKeys tasks) hK hadjK
    hsrcK (kahnMeasure ((graphKeys tasks).map
      (fun k => (k, (inFrom (adjacency tasks) (graphKeys tasks) k : Int)
        - inFrom (adjacency tasks) [] k))) (kahnQueue0 tasks))
    (kahnMeasure ((graphKeys tasks).map
      (fun k => (k, (inFrom (adjacency tasks) (graphKeys tasks) k : Int)
        - inFrom (adjacency tasks) [] k))) (kahnQueue0 tasks) + 1) [] (kahnQueue0 tasks)
    (le_refl _) (by omega) hinv0 (kahnLevels tasks) hLdef
  rw [List.nil_append] at ha hc
  refine ⟨ha, fun x hx => mem_graphKeys.mp (hb x hx), fun x hxK hxf => hc x hxK hxf, ?_⟩
  intro i lvl hget x hx y hxy
  rcases hd i lvl hget x hx y hxy with hyP | hex
  · simp at hyP
  · exact hex

theorem exists_pos_of_inFrom_pos {adj : String → List String} {S : List String}
    {x : String} (h : 0 < inFrom adj S x) : ∃ y ∈ S, x ∈ adj y := by
  by_contra hno
  push_neg at hno
  have : inFrom adj S x = 0 := by
    unfold inFrom
    apply List.sum_eq_zero
    intro n hn
    rcases List.mem_map.mp hn with ⟨y, hy, hyn⟩
    have := hno y hy
    rw [← hyn]
    simpa [List.count_eq_zero] using this
  omega

theorem iterate_transGen {tasks : List TaskNode} {g : String → String} {x0 : String}
    (hstep : ∀ m : Nat, (g^[m] x0) ∈ adjacency tasks (g^[m + 1] x0)) :
    ∀ i d : Nat, Relation.TransGen (edgeAdj tasks) (g^[i + d + 1] x0) (g^[i] x0) := by
  intro i d
  induction d with
  | zero => exact Relation.TransGen.single (hstep i)
  | succ d2 ih =>
    have hstep2 : edgeAdj tasks (g^[i + d2 + 2] x0) (g^[i + d2 + 1] x0) := hstep (i + d2 + 1)
    have : i + (d2 + 1) + 1 = i + d2 + 2 := by omega
    rw [this]
    exact Relation.TransGen.head hstep2 ih

theorem kahnLevels_covers (tasks : List TaskNode) (hnc : ¬ hasCycleProp tasks) :
    ∀ x, isKeyP tasks x → x ∈ (kahnLevels tasks).flatten := by
  obtain ⟨ha, hb, hc, _⟩ := kahnLevels_spec tasks
  by_contra hno
  push_neg at hno
  obtain ⟨x0, hx0K, hx0f⟩ := hno
  set flat := (kahnLevels tasks).flatten with hflat
  set S := (graphKeys tasks).filter (fun k => decide (k ∉ flat)) with hS
  have hmemS : ∀ z, z ∈ S ↔ (z ∈ graphKeys tasks ∧ z ∉ flat) := by
    intro z
    rw [hS, List.mem_filter]
    simp
  have hx0S : x0 ∈ S := (hmemS x0).mpr ⟨mem_graphKeys.mpr hx0K, hx0f⟩
  have hflatnd : flat.Nodup := ha
  have hflatsub : ∀ z ∈ flat, z ∈ graphKeys tasks :=
    fun z hz => mem_graphKeys.mpr (hb z hz)
  have hperm : (flat ++ S).Perm (graphKeys tasks) := by
    apply (List.perm_ext_iff_of_nodup ?_ (graphKeys_nodup tasks)).mpr
    · intro z
      rw [List.mem_append, hmemS z]
      constructor
      · rintro (h1 | ⟨h1, _⟩)
        · exact hflatsub z h1
        · exact h1
      · intro h1
        by_cases h2 : z ∈ flat
        · exact Or.inl h2
        · exact Or.inr ⟨h1, h2⟩
    · rw [List.nodup_append]
      refine ⟨hflatnd, List.Nodup.filter _ (graphKeys_nodup tasks), ?_⟩
      intro z hz hz2
      exact ((hmemS z).mp hz2).2 hz
  have hsplitSum : ∀ z, inFrom (adjacency tasks) (graphKeys tasks) z =
      inFrom (adjacency tasks) flat z + inFrom (adjacency tasks) S z := by
    intro z
    rw [← inFrom_append]
    unfold inFrom
    exact (List.Perm.sum_eq (List.Perm.map _ hperm)).symm
  have hSstep : ∀ z ∈ S, ∃ y ∈ S, z ∈ adjacency tasks y := by
    intro z hz
    obtain ⟨hzK, hzf⟩ := (hmemS z).mp hz
    have hne := hc z hzK hzf
    have hle : inFrom (adjacency tasks) flat z ≤
        inFrom (adjacency tasks) (graphKeys tasks) z :=
      inFrom_le hflatnd hflatsub z
    have hpos : 0 < inFrom (adjacency tasks) S z := by
      have hsplit := hsplitSum z
      omega
    obtain ⟨y, hy, hzy⟩ := exists_pos_of_inFrom_pos hpos
    exact ⟨y, hy, hzy⟩
  classical
  set g : String → String := fun z =>
    if h : ∃ y ∈ S, z ∈ adjacency tasks y then h.choose else z with hg
  have hgS : ∀ z ∈ S, (g z ∈ S ∧ z ∈ adjacency tasks (g z)) := by
    intro z hz
    have hex := hSstep z hz
    rw [hg]
    simp only [dif_pos hex]
    exact ⟨hex.choose_spec.1, hex.choose_spec.2⟩
  have hiterS : ∀ m : Nat, (g^[m] x0) ∈ S := by
    intro m
    induction m with
    | zero => simpa using hx0S
    | succ m2 ih =>
      rw [Function.iterate_succ_apply']
      exact (hgS _ ih).1
  have hstep : ∀ m : Nat, (g^[m] x0) ∈ adjacency tasks (g^[m + 1] x0) := by
    intro m
    rw [Function.iterate_succ_apply']
    exact (hgS _ (hiterS m)).2
  have hcard : S.toFinset.card < (Finset.univ : Finset (Fin (S.toFinset.card + 1))).card := by
    simp
  have hmaps : ∀ i : Fin (S.toFinset.card + 1), i ∈ (Finset.univ : Finset (Fin _)) →
      (g^[(i : Nat)] x0) ∈ S.toFinset := by
    intro i _
    exact List.mem_toFinset.mpr (hiterS i)
  obtain ⟨i, _, j, _, hij, heq⟩ :=
    Finset.exists_ne_map_eq_of_card_lt_of_maps_to hcard hmaps
  have hcyc : ∃ z, Relation.TransGen (edgeAdj tasks) z z := by
    rcases lt_or_gt_of_ne (fun he : (i : Nat) = (j : Nat) => hij (Fin.ext he)) with hlt | hlt
    · have hd : (j : Nat) = (i : Nat) + ((j : Nat) - (i : Nat) - 1) + 1 := by omega
      have htg := iterate_transGen hstep (i : Nat) ((j : Nat) - (i : Nat) - 1)
      rw [← hd] at htg
      rw [heq] at htg
      exact ⟨g^[(j : Nat)] x0, htg⟩
    · have hd : (i : Nat) = (j : Nat) + ((i : Nat) - (j : Nat) - 1) + 1 := by omega
      have htg := iterate_transGen hstep (j : Nat) ((i : Nat) - (j : Nat) - 1)
      rw [← hd] at htg
      rw [← heq] at htg
      exact ⟨g^[(i : Nat)] x0, htg⟩
  exact hnc ((hasCycleProp_iff_adj tasks).mpr hcyc)

instance decNodupIds (tasks : List TaskNode) : Decidable (NodupIds tasks) := by
  unfold NodupIds
  infer_instance

instance decIsKeyP (tasks : List TaskNode) (d : String) : Decidable (isKeyP tasks d) := by
  unfold isKeyP
  infer_instance

theorem flatten_level_unique :
    ∀ (L : List (List String)), L.flatten.Nodup →
    ∀ i j li lj (x : String), L.get? i = some li → L.get? j = some lj →
    x ∈ li → x ∈ lj → i = j := by
  intro L
  induction L with
  | nil =>
    intro _ i j li lj x hi
    simp at hi
  | cons l L ih =>
    intro hnd i j li lj x hi hj hxi hxj
    rw [List.flatten_cons, List.nodup_append] at hnd
    obtain ⟨hl, hLnd, hdisj⟩ := hnd
    cases i with
    | zero =>
      cases j with
      | zero => rfl
      | succ j2 =>
        exfalso
        simp only [List.get?] at hi hj
        injection hi with hi2
        subst hi2
        have hmem : x ∈ L.flatten := by
          apply List.mem_join.mpr
          exact ⟨lj, List.get?_mem hj, hxj⟩
        exact hdisj hxi hmem
    | succ i2 =>
      cases j with
      | zero =>
        exfalso
        simp only [List.get?] at hi hj
        injection hj with hj2
        subst hj2
        have hmem : x ∈ L.flatten := by
          apply List.mem_join.mpr
          exact ⟨li, List.get?_mem hi, hxi⟩
        exact hdisj hxj hmem
      | succ j2 =>
        simp only [List.get?] at hi hj
        have := ih hLnd i2 j2 li lj x hi hj hxi hxj
        omega

theorem mem_map_theTask {tasks : List TaskNode} (hnd : NodupIds tasks)
    {lvl : List String} (hsub : ∀ z ∈ lvl, isKeyP tasks z) {A : TaskNode}
    (hA : A ∈ tasks) :
    A ∈ lvl.map (theTask tasks) ↔ A.task_id ∈ lvl := by
  constructor
  · intro h
    rcases List.mem_map.mp h with ⟨id, hid, hidA⟩
    have : (theTask tasks id).task_id = id := theTask_id (hsub id hid)
    rw [hidA] at this
    exact this ▸ hid
  · intro h
    apply List.mem_map.mpr
    exact ⟨A.task_id, h, theTask_mem_eq hnd hA⟩

/-- C1: For every input task list whose dependency relation contains a
cycle, TaskGraph construction raises a validation error; for every acyclic
input task list, construction succeeds and get_execution_order() returns a
list of levels whose union contains each input task exactly once.  Task ids
are assumed unique per the data model. -/
theorem C1_graph_validation_and_levels (tasks : List TaskNode) (hnd : NodupIds tasks) :
    (hasCycleProp tasks → ∃ e, TaskGraph.make tasks = .error e) ∧
    (¬ hasCycleProp tasks → ∃ g, TaskGraph.make tasks = .ok g ∧
      g.get_execution_order.flatten.Perm tasks) := by
  constructor
  · intro hcyc
    exact (make_error_iff tasks).mpr hcyc
  · intro hnc
    obtain ⟨g, hg⟩ := (make_ok_iff tasks).mpr hnc
    have hgt : g = ⟨tasks⟩ := make_ok_tasks hg
    subst hgt
    refine ⟨⟨tasks⟩, hg, ?_⟩
    obtain ⟨ha, hb, _, _⟩ := kahnLevels_spec tasks
    have hflat : (TaskGraph.mk tasks).get_execution_order.flatten =
        (kahnLevels tasks).flatten.map (theTask tasks) := by
      unfold TaskGraph.get_execution_order
      simp only
      exact (List.map_flatten _ _).symm
    rw [hflat]
    have hidperm : (kahnLevels tasks).flatten.Perm (tasks.map (fun t => t.task_id)) := by
      apply (List.perm_ext_iff_of_nodup ha hnd).mpr
      intro z
      constructor
      · intro hz
        exact hb z hz
      · intro hz
        exact kahnLevels_covers tasks hnc z hz
    have hfinal : (tasks.map (fun t => t.task_id)).map (theTask tasks) = tasks := by
      rw [List.map_map]
      have : ∀ t ∈ tasks, (theTask tasks ∘ fun t => t.task_id) t = t := by
        intro t ht
        exact theTask_mem_eq hnd ht
      rw [List.map_congr_left this]
      exact List.map_id tasks
    have hp2 := List.Perm.map (theTask tasks) hidperm
    rw [hfinal] at hp2
    exact hp2

/-- C1 witness: a concrete acyclic two-node list with unique ids. -/
theorem C1_graph_validation_and_levels_witness :
    NodupIds [⟨"a", "", "", [], .researcher, [], .pending, none, none⟩,
      ⟨"b", "", "", ["a"], .researcher, [], .pending, none, none⟩] ∧
    ((hasCycleProp [⟨"a", "", "", [], .researcher, [], .pending, none, none⟩,
        ⟨"b", "", "", ["a"], .researcher, [], .pending, none, none⟩] →
      ∃ e, TaskGraph.make [⟨"a", "", "", [], .researcher, [], .pending, none, none⟩,
        ⟨"b", "", "", ["a"], .researcher, [], .pending, none, none⟩] = .error e) ∧
     (¬ hasCycleProp [⟨"a", "", "", [], .researcher, [], .pending, none, none⟩,
        ⟨"b", "", "", ["a"], .researcher, [], .pending, none, none⟩] →
      ∃ g, TaskGraph.make [⟨"a", "", "", [], .researcher, [], .pending, none, none⟩,
        ⟨"b", "", "", ["a"], .researcher, [], .pending, none, none⟩] = .ok g ∧
        g.get_execution_order.flatten.Perm
          [⟨"a", "", "", [], .researcher, [], .pending, none, none⟩,
           ⟨"b", "", "", ["a"], .researcher, [], .pending, none, none⟩])) :=
  ⟨by decide, C1_graph_validation_and_levels _ (by decide)⟩

/-- C6: in an acyclic task list with unique ids, a task B that depends on a
task A is assigned a strictly greater level index by get_execution_order
than A; both tasks appear in the level decomposition. -/
theorem C6_dependency_level_strictly_greater (tasks : List TaskNode) (A B : TaskNode)
    (hnd : NodupIds tasks) (hnc : ¬ hasCycleProp tasks)
    (hA : A ∈ tasks) (hB : B ∈ tasks) (hdep : A.task_id ∈ B.dependencies) :
    (∃ i lvlA, (TaskGraph.mk tasks).get_execution_order.get? i = some lvlA ∧ A ∈ lvlA) ∧
    (∃ j lvlB, (TaskGraph.mk tasks).get_execution_order.get? j = some lvlB ∧ B ∈ lvlB) ∧
    (∀ i j lvlA lvlB,
      (TaskGraph.mk tasks).get_execution_order.get? i = some lvlA → A ∈ lvlA →
      (TaskGraph.mk tasks).get_execution_order.get? j = some lvlB → B ∈ lvlB → i < j) := by
  obtain ⟨hnodup, hkeys, _, hlevels⟩ := kahnLevels_spec tasks
  have hsubOf : ∀ {idlvl : List String}, ∀ i, (kahnLevels tasks).get? i = some idlvl →
      ∀ z ∈ idlvl, isKeyP tasks z := by
    intro idlvl i hget z hz
    exact hkeys z (List.mem_join.mpr ⟨idlvl, List.get?_mem hget, hz⟩)
  have horder : ∀ i, (TaskGraph.mk tasks).get_execution_order.get? i =
      ((kahnLevels tasks).get? i).map (List.map (theTask tasks)) := by
    intro i
    unfold TaskGraph.get_execution_order
    exact List.get?_map _ _ i
  have hexists : ∀ (T : TaskNode), T ∈ tasks →
      ∃ i lvl, (TaskGraph.mk tasks).get_execution_order.get? i = some lvl ∧ T ∈ lvl := by
    intro T hT
    have hkey : isKeyP tasks T.task_id := List.mem_map.mpr ⟨T, hT, rfl⟩
    have hcov := kahnLevels_covers tasks hnc T.task_id hkey
    obtain ⟨idlvl, hidlvl, hmem⟩ := List.mem_join.mp hcov
    obtain ⟨i, hget⟩ := List.mem_iff_get?.mp hidlvl
    refine ⟨i, idlvl.map (theTask tasks), ?_, ?_⟩
    · rw [horder i, hget]
      rfl
    · exact (mem_map_theTask hnd (hsubOf i hget) hT).mpr hmem
  refine ⟨hexists A hA, hexists B hB, ?_⟩
  intro i j lvlA lvlB hgi hAi hgj hBj
  rw [horder i] at hgi
  rw [horder j] at hgj
  rcases Option.map_eq_some'.mp hgi with ⟨idA, hgetA, hlvlA⟩
  rcases Option.map_eq_some'.mp hgj with ⟨idB, hgetB, hlvlB⟩
  subst hlvlA
  subst hlvlB
  have hAid : A.task_id ∈ idA := (mem_map_theTask hnd (hsubOf i hgetA) hA).mp hAi
  have hBid : B.task_id ∈ idB := (mem_map_theTask hnd (hsubOf j hgetB) hB).mp hBj
  have hedge : B.task_id ∈ adjacency tasks A.task_id :=
    mem_adjacency.mpr ⟨List.mem_map.mpr ⟨A, hA, rfl⟩, ⟨B, hB, rfl, hdep⟩⟩
  obtain ⟨j2, idlvl2, hj2, hget2, hA2⟩ := hlevels j idB hgetB B.task_id hBid A.task_id hedge
  have : i = j2 := flatten_level_unique (kahnLevels tasks) hnodup i j2 idA idlvl2
    A.task_id hgetA hget2 hAid hA2
  omega

/-- C6 witness: the concrete list [a, b] where b depends on a. -/
theorem C6_dependency_level_strictly_greater_witness :
    NodupIds [⟨"a", "", "", [], .researcher, [], .pending, none, none⟩,
      ⟨"b", "", "", ["a"], .researcher, [], .pending, none, none⟩] ∧
    ¬ hasCycleProp [⟨"a", "", "", [], .researcher, [], .pending, none, none⟩,
      ⟨"b", "", "", ["a"], .researcher, [], .pending, none, none⟩] ∧
    (∀ i j lvlA lvlB,
      (TaskGraph.mk [⟨"a", "", "", [], .researcher, [], .pending, none, none⟩,
        ⟨"b", "", "", ["a"], .researcher, [], .pending, none, none⟩]).get_execution_order.get?
          i = some lvlA →
      (⟨"a", "", "", [], .researcher, [], .pending, none, none⟩ : TaskNode) ∈ lvlA →
      (TaskGraph.mk [⟨"a", "", "", [], .researcher, [], .pending, none, none⟩,
        ⟨"b", "", "", ["a"], .researcher, [], .pending, none, none⟩]).get_execution_order.get?
          j = some lvlB →
      (⟨"b", "", "", ["a"], .researcher, [], .pending, none, none⟩ : TaskNode) ∈ lvlB →
      i < j) := by
  have hnc : ¬ hasCycleProp [⟨"a", "", "", [], .researcher, [], .pending, none, none⟩,
      ⟨"b", "", "", ["a"], .researcher, [], .pending, none, none⟩] := by
    intro hc
    have h1 := (hasCycleB_iff_prop _).mpr hc
    have h2 : hasCycleB [⟨"a", "", "", [], .researcher, [], .pending, none, none⟩,
        ⟨"b", "", "", ["a"], .researcher, [], .pending, none, none⟩] = false := by decide
    rw [h2] at h1
    simp at h1
  refine ⟨by decide, hnc, ?_⟩
  exact (C6_dependency_level_strictly_greater _ _ _ (by decide) hnc
    (by decide) (by decide) (by decide)).2.2

/-- C2 counterexample: a single task whose dependency list names the
undefined id "ghost"; TaskGraph construction nevertheless succeeds. -/
theorem C2_undefined_dependency_counterexample :
    ¬ isKeyP [⟨"b", "", "", ["ghost"], .researcher, [], .pending, none, none⟩] "ghost" ∧
    "ghost" ∈ (TaskNode.mk "b" "" "" ["ghost"] .researcher [] .pending none none).dependencies ∧
    TaskGraph.make [⟨"b", "", "", ["ghost"], .researcher, [], .pending, none, none⟩]
      = .ok ⟨[⟨"b", "", "", ["ghost"], .researcher, [], .pending, none, none⟩]⟩ :=
  ⟨by decide, by decide, rfl⟩

/-- C2 amended: construction does not check that dependency ids exist; an
undefined dependency id is silently skipped when the graph edges are built,
and construction fails exactly when the dependency relation has a cycle. -/
theorem C2_undefined_dependency_ignored (tasks : List TaskNode)
    (h : ∃ t ∈ tasks, ∃ d ∈ t.dependencies, ¬ isKeyP tasks d) :
    ((∃ g, TaskGraph.make tasks = .ok g) ↔ ¬ hasCycleProp tasks) := by
  clear h
  exact make_ok_iff tasks

/-- C2 amended witness: the same one-task list with a dangling reference. -/
theorem C2_undefined_dependency_ignored_witness :
    (∃ t ∈ [⟨"b", "", "", ["ghost"], .researcher, [], .pending, none, none⟩],
      ∃ d ∈ TaskNode.dependencies t,
        ¬ isKeyP [(⟨"b", "", "", ["ghost"], .researcher, [], .pending, none, none⟩ : TaskNode)] d) ∧
    ((∃ g, TaskGraph.make [⟨"b", "", "", ["ghost"], .researcher, [], .pending, none, none⟩]
        = .ok g) ↔
      ¬ hasCycleProp [⟨"b", "", "", ["ghost"], .researcher, [], .pending, none, none⟩]) :=
  ⟨by decide, C2_undefined_dependency_ignored _ (by decide)⟩

/-- C10: update_task_status with a task_id matching no node leaves the
graph unchanged (and, being a total function, raises nothing). -/
theorem C10_update_unknown_id_noop (g : TaskGraph) (id : String)
    (status : TaskStatus) (result : Option String) (error : Option String)
    (h : ∀ t ∈ g.tasks, t.task_id ≠ id) :
    g.update_task_status id status result error = g := by
  unfold TaskGraph.update_task_status
  have hnone : task_map_get g.tasks id = none := by
    unfold task_map_get
    apply List.find?_eq_none.mpr
    intro t ht
    simpa using h t (List.mem_reverse.mp ht)
  rw [hnone]

/-- C10 witness: updating an id absent from a one-node graph. -/
theorem C10_update_unknown_id_noop_witness :
    (∀ t ∈ (TaskGraph.mk [⟨"a", "", "", [], .researcher, [], .pending, none, none⟩]).tasks,
      t.task_id ≠ "zz") ∧
    (TaskGraph.mk [⟨"a", "", "", [], .researcher, [], .pending, none, none⟩]).update_task_status
      "zz" .completed (some "r") (some "e")
      = TaskGraph.mk [⟨"a", "", "", [], .researcher, [], .pending, none, none⟩] :=
  ⟨by decide, C10_update_unknown_id_noop _ _ _ _ _ (by decide)⟩

/-- C5: when the parsed evaluator output supplies no overall score, the
Critique's overall score is the weighted sum 0.3/0.3/0.2/0.2 of the four
dimension scores. -/
theorem C5_overall_score_weighted (parsed : ParsedEval) (now : Int)
    (h : parsed.overall_score = none) :
    (critiqueFromParsed parsed now).overall_score =
      (3/10 : ℚ) * (critiqueFromParsed parsed now).completeness_score +
      (3/10 : ℚ) * (critiqueFromParsed parsed now).evidence_strength_score +
      (2/10 : ℚ) * (critiqueFromParsed parsed now).coherence_score +
      (2/10 : ℚ) * (critiqueFromParsed parsed now).actionability_score := by
  unfold critiqueFromParsed
  rw [h]
  simp only
  ring

/-- C5 witness: completeness 0.8, evidence 0.6, coherence 0.9,
actionability 0.7 with no explicit overall give overall 0.74. -/
theorem C5_overall_score_weighted_witness :
    (ParsedEval.overall_score
      ⟨some (4/5), some (3/5), some (9/10), some (7/10), none,
        none, none, none, none, none⟩ = none) ∧
    (critiqueFromParsed
      ⟨some (4/5), some (3/5), some (9/10), some (7/10), none,
        none, none, none, none, none⟩ 0).overall_score = (74/100 : ℚ) := by
  refine ⟨rfl, ?_⟩
  rw [C5_overall_score_weighted _ 0 rfl]
  norm_num [critiqueFromParsed]

/-- C7: refine_plan returns a plan with version original.version + 1 and
plan id original.plan_id followed by the suffix _v{version + 1}, and the
original plan is left unchanged. -/
theorem C7_refine_plan_version_id_frame (decompose : String → Option Ctx → List TaskNode)
    (genId : String) (now : Int) (P : Plan) (critique : Critique) (context : Option Ctx) :
    (PlanningEngine.refine_plan decompose genId now P critique context).1 = P ∧
    (PlanningEngine.refine_plan decompose genId now P critique context).2.version
      = P.version + 1 ∧
    (PlanningEngine.refine_plan decompose genId now P critique context).2.plan_id
      = P.plan_id ++ ("_v" ++ toString (P.version + 1)) := by
  refine ⟨rfl, rfl, ?_⟩
  show P.plan_id ++ "_v" ++ toString (P.version + 1)
      = P.plan_id ++ ("_v" ++ toString (P.version + 1))
  rw [String.append_assoc]

/-- C8 counterexample: a plan with both a dependency cycle (t1, t2) and a
dangling reference (t3 depends on the undefined id "ghost").  validate_plan
returns early on the graph error, so the complete defect list is NOT
returned: the dangling-dependency issue for t3 is missing. -/
theorem C8_validate_plan_counterexample :
    ¬ isKeyP [⟨"t1", "", "", ["t2"], .researcher, [], .pending, none, none⟩,
        ⟨"t2", "", "", ["t1"], .researcher, [], .pending, none, none⟩,
        ⟨"t3", "", "", ["ghost"], .researcher, [], .pending, none, none⟩] "ghost" ∧
    PlanningEngine.validate_plan
      ⟨"p", "goal", [⟨"t1", "", "", ["t2"], .researcher, [], .pending, none, none⟩,
        ⟨"t2", "", "", ["t1"], .researcher, [], .pending, none, none⟩,
        ⟨"t3", "", "", ["ghost"], .researcher, [], .pending, none, none⟩], 0, 1, []⟩
      = (false, ["Task graph validation failed: Cycle detected in task graph involving task: t1"]) ∧
    orphanMsg "t3" "ghost" ∉
      (PlanningEngine.validate_plan
        ⟨"p", "goal", [⟨"t1", "", "", ["t2"], .researcher, [], .pending, none, none⟩,
          ⟨"t2", "", "", ["t1"], .researcher, [], .pending, none, none⟩,
          ⟨"t3", "", "", ["ghost"], .researcher, [], .pending, none, none⟩], 0, 1, []⟩).2 := by
  refine ⟨by decide, rfl, by decide⟩

/-- C8 amended: validate_plan collects the empty-goal and empty-task-list
issues together; when TaskGraph construction fails (a cycle) it returns
early with only those issues plus the graph message, skipping the
dependency-existence check; when construction succeeds it additionally
reports every dangling dependency reference, and it reports the plan valid
exactly when no check failed. -/
theorem C8_validate_plan_behavior (plan : Plan) :
    (∀ e, TaskGraph.make plan.tasks = .error e →
      PlanningEngine.validate_plan plan = (false,
        ((if plan.goal == "" then ["Plan has no goal"] else []) ++
         (if plan.tasks.isEmpty then ["Plan has no tasks"] else [])) ++
        ["Task graph validation failed: " ++ e])) ∧
    (∀ g, TaskGraph.make plan.tasks = .ok g →
      ((plan.goal = "" → "Plan has no goal" ∈ (PlanningEngine.validate_plan plan).2) ∧
       (plan.tasks = [] → "Plan has no tasks" ∈ (PlanningEngine.validate_plan plan).2) ∧
       (∀ t ∈ plan.tasks, ∀ d ∈ t.dependencies, ¬ isKeyP plan.tasks d →
          orphanMsg t.task_id d ∈ (PlanningEngine.validate_plan plan).2) ∧
       ((PlanningEngine.validate_plan plan).1 = true →
          plan.goal ≠ "" ∧ plan.tasks ≠ [] ∧
          ∀ t ∈ plan.tasks, ∀ d ∈ t.dependencies, isKeyP plan.tasks d))) := by
  constructor
  · intro e he
    unfold PlanningEngine.validate_plan
    rw [he]
  · intro g hg
    unfold PlanningEngine.validate_plan
    rw [hg]
    simp only
    refine ⟨?_, ?_, ?_, ?_⟩
    · intro hgoal
      apply List.mem_append.mpr
      left
      apply List.mem_append.mpr
      left
      rw [if_pos (by simp [hgoal])]
      exact List.mem_cons_self _ _
    · intro htasks
      apply List.mem_append.mpr
      left
      apply List.mem_append.mpr
      right
      rw [if_pos (by simp [htasks])]
      exact List.mem_cons_self _ _
    · intro t ht d hd hnk
      apply List.mem_append.mpr
      right
      apply List.mem_flatMap.mpr
      refine ⟨t, ht, ?_⟩
      apply List.mem_map.mpr
      refine ⟨d, ?_, rfl⟩
      apply List.mem_filter.mpr
      refine ⟨hd, ?_⟩
      have : isKeyB plan.tasks d = false := by
        cases hb : isKeyB plan.tasks d
        · rfl
        · exact absurd ((isKeyB_iff _ _).mp hb) hnk
      simp [this]
    · intro hvalid
      rw [List.isEmpty_iff] at hvalid
      rcases List.append_eq_nil.mp hvalid with ⟨h12, horph⟩
      rcases List.append_eq_nil.mp h12 with ⟨h1, h2⟩
      refine ⟨?_, ?_, ?_⟩
      · intro hgoal
        rw [if_pos (by simp [hgoal])] at h1
        simp at h1
      · intro htasks
        rw [if_pos (by simp [htasks])] at h2
        simp at h2
      · intro t ht d hd
        by_contra hnk
        have hmem : orphanMsg t.task_id d ∈
            plan.tasks.flatMap (fun t2 =>
              (t2.dependencies.filter (fun d2 => !isKeyB plan.tasks d2)).map
                (fun d2 => orphanMsg t2.task_id d2)) := by
          apply List.mem_flatMap.mpr
          refine ⟨t, ht, ?_⟩
          apply List.mem_map.mpr
          refine ⟨d, ?_, rfl⟩
          apply List.mem_filter.mpr
          refine ⟨hd, ?_⟩
          have : isKeyB plan.tasks d = false := by
            cases hb : isKeyB plan.tasks d
            · rfl
            · exact absurd ((isKeyB_iff _ _).mp hb) hnk
          simp [this]
        rw [horph] at hmem
        simp at hmem

/-- C8 amended witness: an empty plan whose graph constructs fine; both
emptiness issues are collected together. -/
theorem C8_validate_plan_behavior_witness :
    "Plan has no goal" ∈ (PlanningEngine.validate_plan ⟨"p", "", [], 0, 1, []⟩).2 ∧
    "Plan has no tasks" ∈ (PlanningEngine.validate_plan ⟨"p", "", [], 0, 1, []⟩).2 := by
  have h := (C8_validate_plan_behavior ⟨"p", "", [], 0, 1, []⟩).2 ⟨[]⟩ rfl
  exact ⟨h.1 rfl, h.2.1 rfl⟩

theorem updateFirstMatch_eq_map {l : List TaskNode} {id : String}
    (hnd : (l.map (fun t => t.task_id)).Nodup) (f : TaskNode → TaskNode) :
    updateFirstMatch id f l = l.map (fun t => if t.task_id = id then f t else t) := by
  induction l with
  | nil => rfl
  | cons a l ih =>
    rw [List.map_cons, List.nodup_cons] at hnd
    obtain ⟨ha, hl⟩ := hnd
    by_cases hid : a.task_id = id
    · rw [updateFirstMatch, if_pos (by simpa using hid), List.map_cons, if_pos hid]
      congr 1
      have : ∀ t ∈ l, (if t.task_id = id then f t else t) = t := by
        intro t ht
        rw [if_neg]
        intro he
        exact ha (hid ▸ he ▸ List.mem_map.mpr ⟨t, ht, rfl⟩)
      rw [List.map_congr_left this]
      exact (List.map_id l).symm
    · rw [updateFirstMatch, if_neg (by simpa using hid), List.map_cons, if_neg hid, ih hl]

theorem update_task_status_tasks {g : TaskGraph} (hnd : NodupIds g.tasks)
    (id : String) (status : TaskStatus) (result : Option String) (error : Option String) :
    (g.update_task_status id status result error).tasks =
      g.tasks.map (fun t =>
        if t.task_id = id then applyStatusUpdate status result error t else t) := by
  unfold TaskGraph.update_task_status
  cases hm : task_map_get g.tasks id with
  | none =>
    simp only
    have hno : ∀ t ∈ g.tasks, t.task_id ≠ id := by
      intro t ht
      unfold task_map_get at hm
      have := List.find?_eq_none.mp hm t (List.mem_reverse.mpr ht)
      simpa using this
    have : ∀ t ∈ g.tasks, (if t.task_id = id then applyStatusUpdate status result error t
        else t) = t := by
      intro t ht
      rw [if_neg (hno t ht)]
    rw [List.map_congr_left this]
    exact (List.map_id g.tasks).symm
  | some t0 =>
    simp only
    have hndrev : (g.tasks.reverse.map (fun t => t.task_id)).Nodup := by
      rw [List.map_reverse]
      exact List.nodup_reverse.mpr hnd
    rw [updateFirstMatch_eq_map hndrev, List.map_reverse, List.reverse_reverse]

theorem update_task_status_ids {g : TaskGraph} (hnd : NodupIds g.tasks)
    (id : String) (status : TaskStatus) (result : Option String) (error : Option String) :
    (g.update_task_status id status result error).tasks.map (fun t => t.task_id) =
      g.tasks.map (fun t => t.task_id) := by
  rw [update_task_status_tasks hnd, List.map_map]
  apply List.map_congr_left
  intro t _
  by_cases hid : t.task_id = id
  · simp [hid, applyStatusUpdate]
  · simp [hid]

theorem runOneNode_ids {work : TaskNode → WorkerReply} {lv : Nat}
    {st : TaskGraph × List LogEntry} (hnd : NodupIds st.1.tasks) (node : TaskNode) :
    (runOneNode work lv st node).1.tasks.map (fun t => t.task_id) =
      st.1.tasks.map (fun t => t.task_id) := by
  unfold runOneNode
  by_cases ha : agentAvailable node.agent_role
  · rw [if_pos ha]
    exact update_task_status_ids hnd _ _ _ _
  · rw [if_neg ha]
    exact update_task_status_ids hnd _ _ _ _

theorem runOneNode_log {work : TaskNode → WorkerReply} {lv : Nat}
    {st : TaskGraph × List LogEntry} (node : TaskNode) :
    ∃ e, (runOneNode work lv st node).2 = st.2 ++ [e] ∧ e.task_id = node.task_id := by
  unfold runOneNode
  by_cases ha : agentAvailable node.agent_role
  · rw [if_pos ha]
    exact ⟨_, rfl, rfl⟩
  · rw [if_neg ha]
    exact ⟨_, rfl, rfl⟩

theorem runOneNode_status {work : TaskNode → WorkerReply} {lv : Nat}
    {st : TaskGraph × List LogEntry} (hnd : NodupIds st.1.tasks)
    (hwork : ∀ n, (work n).status = .completed ∨ (work n).status = .failed)
    (node : TaskNode) :
    ∀ t ∈ (runOneNode work lv st node).1.tasks,
      (t.task_id = node.task_id ∧ (t.status = .completed ∨ t.status = .failed)) ∨
      (t.task_id ≠ node.task_id ∧ t ∈ st.1.tasks) := by
  intro t ht
  unfold runOneNode at ht
  by_cases ha : agentAvailable node.agent_role
  · rw [if_pos ha] at ht
    simp only at ht
    rw [update_task_status_tasks hnd] at ht
    rcases List.mem_map.mp ht with ⟨t1, ht1, hft⟩
    by_cases hid : t1.task_id = node.task_id
    · rw [if_pos hid] at hft
      left
      subst hft
      exact ⟨by simpa [applyStatusUpdate] using hid, hwork node⟩
    · rw [if_neg hid] at hft
      right
      subst hft
      exact ⟨hid, ht1⟩
  · rw [if_neg ha] at ht
    simp only at ht
    rw [update_task_status_tasks hnd] at ht
    rcases List.mem_map.mp ht with ⟨t1, ht1, hft⟩
    by_cases hid : t1.task_id = node.task_id
    · rw [if_pos hid] at hft
      left
      subst hft
      exact ⟨by simpa [applyStatusUpdate] using hid, Or.inr rfl⟩
    · rw [if_neg hid] at hft
      right
      subst hft
      exact ⟨hid, ht1⟩

theorem runNodes_ids {work : TaskNode → WorkerReply} {lv : Nat} :
    ∀ (nodes : List TaskNode) (st : TaskGraph × List LogEntry),
      NodupIds st.1.tasks →
      ((nodes.foldl (runOneNode work lv) st).1.tasks.map (fun t => t.task_id)
        = st.1.tasks.map (fun t => t.task_id)) := by
  intro nodes
  induction nodes with
  | nil => intro st _; rfl
  | cons n nodes ih =>
    intro st hnd
    rw [List.foldl_cons]
    have hids := @runOneNode_ids work lv _ hnd n
    have hnd2 : NodupIds (runOneNode work lv st n).1.tasks := by
      unfold NodupIds
      rw [hids]
      exact hnd
    rw [ih _ hnd2, hids]

theorem runNodes_log {work : TaskNode → WorkerReply} {lv : Nat} :
    ∀ (nodes : List TaskNode) (st : TaskGraph × List LogEntry),
      (∀ e ∈ st.2, e ∈ (nodes.foldl (runOneNode work lv) st).2) ∧
      (∀ n ∈ nodes, ∃ e ∈ (nodes.foldl (runOneNode work lv) st).2,
        e.task_id = n.task_id) := by
  intro nodes
  induction nodes with
  | nil =>
    intro st
    exact ⟨fun e he => he, by simp⟩
  | cons n nodes ih =>
    intro st
    rw [List.foldl_cons]
    obtain ⟨e1, hlog, hid⟩ := @runOneNode_log work lv st n
    obtain ⟨hmono, hcov⟩ := ih (runOneNode work lv st n)
    constructor
    · intro e he
      apply hmono
      rw [hlog]
      exact List.mem_append.mpr (Or.inl he)
    · intro m hm
      rcases List.mem_cons.mp hm with rfl | hm2
      · refine ⟨e1, ?_, hid⟩
        apply hmono
        rw [hlog]
        exact List.mem_append.mpr (Or.inr (List.mem_cons_self e1 []))
      · exact hcov m hm2

theorem runNodes_status {work : TaskNode → WorkerReply} {lv : Nat}
    (hwork : ∀ n, (work n).status = .completed ∨ (work n).status = .failed) :
    ∀ (nodes : List TaskNode) (st : TaskGraph × List LogEntry) (D : String → Prop),
      NodupIds st.1.tasks →
      (∀ t ∈ st.1.tasks, D t.task_id → (t.status = .completed ∨ t.status = .failed)) →
      ∀ t ∈ (nodes.foldl (runOneNode work lv) st).1.tasks,
        (D t.task_id ∨ ∃ n ∈ nodes, n.task_id = t.task_id) →
        (t.status = .completed ∨ t.status = .failed) := by
  intro nodes
  induction nodes with
  | nil =>
    intro st D hnd hD t ht hcase
    rcases hcase with h1 | ⟨n, hn, _⟩
    · exact hD t ht h1
    · simp at hn
  | cons n nodes ih =>
    intro st D hnd hD t ht hcase
    rw [List.foldl_cons] at ht
    have hids := @runOneNode_ids work lv _ hnd n
    have hnd2 : NodupIds (runOneNode work lv st n).1.tasks := by
      unfold NodupIds
      rw [hids]
      exact hnd
    have hD2 : ∀ t2 ∈ (runOneNode work lv st n).1.tasks,
        (D t2.task_id ∨ t2.task_id = n.task_id) →
        (t2.status = .completed ∨ t2.status = .failed) := by
      intro t2 ht2 hc2
      rcases runOneNode_status hnd hwork n t2 ht2 with ⟨_, hterm⟩ | ⟨hne, hmem⟩
      · exact hterm
      · rcases hc2 with h1 | h1
        · exact hD t2 hmem h1
        · exact absurd h1 hne
    have := ih (runOneNode work lv st n)
      (fun x => D x ∨ x = n.task_id) hnd2 (fun t2 ht2 hc2 => hD2 t2 ht2 hc2) t ht
    apply this
    rcases hcase with h1 | ⟨m, hm, hmid⟩
    · exact Or.inl (Or.inl h1)
    · rcases List.mem_cons.mp hm with rfl | hm2
      · exact Or.inl (Or.inr hmid.symm)
      · exact Or.inr ⟨m, hm2, hmid⟩

theorem runLevels_ids {work : TaskNode → WorkerReply} :
    ∀ (lvls : List (Nat × List TaskNode)) (st : TaskGraph × List LogEntry),
      NodupIds st.1.tasks →
      ((lvls.foldl (fun st2 lv => lv.2.foldl (runOneNode work lv.1) st2) st).1.tasks.map
          (fun t => t.task_id)
        = st.1.tasks.map (fun t => t.task_id)) := by
  intro lvls
  induction lvls with
  | nil => intro st _; rfl
  | cons lv lvls ih =>
    intro st hnd
    rw [List.foldl_cons]
    have hids := @runNodes_ids work lv.1 lv.2 st hnd
    have hnd2 : NodupIds (lv.2.foldl (runOneNode work lv.1) st).1.tasks := by
      unfold NodupIds
      rw [hids]
      exact hnd
    rw [ih _ hnd2, hids]

theorem runLevels_log {work : TaskNode → WorkerReply} :
    ∀ (lvls : List (Nat × List TaskNode)) (st : TaskGraph × List LogEntry),
      (∀ e ∈ st.2,
        e ∈ (lvls.foldl (fun st2 lv => lv.2.foldl (runOneNode work lv.1) st2) st).2) ∧
      (∀ lv ∈ lvls, ∀ n ∈ lv.2,
        ∃ e ∈ (lvls.foldl (fun st2 lv2 => lv2.2.foldl (runOneNode work lv2.1) st2) st).2,
          e.task_id = n.task_id) := by
  intro lvls
  induction lvls with
  | nil =>
    intro st
    exact ⟨fun e he => he, by simp⟩
  | cons lv lvls ih =>
    intro st
    rw [List.foldl_cons]
    obtain ⟨hmono1, hcov1⟩ := @runNodes_log work lv.1 lv.2 st
    obtain ⟨hmono2, hcov2⟩ := ih (lv.2.foldl (runOneNode work lv.1) st)
    constructor
    · intro e he
      exact hmono2 e (hmono1 e he)
    · intro lv2 hlv2 n hn
      rcases List.mem_cons.mp hlv2 with rfl | hlv3
      · obtain ⟨e, he, heid⟩ := hcov1 n hn
        exact ⟨e, hmono2 e he, heid⟩
      · exact hcov2 lv2 hlv3 n hn

theorem runLevels_status {work : TaskNode → WorkerReply}
    (hwork : ∀ n, (work n).status = .completed ∨ (work n).status = .failed) :
    ∀ (lvls : List (Nat × List TaskNode)) (st : TaskGraph × List LogEntry)
      (D : String → Prop),
      NodupIds st.1.tasks →
      (∀ t ∈ st.1.tasks, D t.task_id → (t.status = .completed ∨ t.status = .failed)) →
      ∀ t ∈ (lvls.foldl (fun st2 lv => lv.2.foldl (runOneNode work lv.1) st2) st).1.tasks,
        (D t.task_id ∨ ∃ lv ∈ lvls, ∃ n ∈ lv.2, n.task_id = t.task_id) →
        (t.status = .completed ∨ t.status = .failed) := by
  intro lvls
  induction lvls with
  | nil =>
    intro st D hnd hD t ht hcase
    rcases hcase with h1 | ⟨lv, hlv, _⟩
    · exact hD t ht h1
    · simp at hlv
  | cons lv lvls ih =>
    intro st D hnd hD t ht hcase
    rw [List.foldl_cons] at ht
    have hids := @runNodes_ids work lv.1 lv.2 st hnd
    have hnd2 : NodupIds (lv.2.foldl (runOneNode work lv.1) st).1.tasks := by
      unfold NodupIds
      rw [hids]
      exact hnd
    have hD2 : ∀ t2 ∈ (lv.2.foldl (runOneNode work lv.1) st).1.tasks,
        (D t2.task_id ∨ ∃ n ∈ lv.2, n.task_id = t2.task_id) →
        (t2.status = .completed ∨ t2.status = .failed) :=
      runNodes_status hwork lv.2 st D hnd hD
    have := ih (lv.2.foldl (runOneNode work lv.1) st)
      (fun x => D x ∨ ∃ n ∈ lv.2, n.task_id = x) hnd2
      (fun t2 ht2 hc2 => hD2 t2 ht2 (by
        rcases hc2 with h1 | h1
        · exact Or.inl h1
        · exact Or.inr h1)) t ht
    apply this
    rcases hcase with h1 | ⟨lv2, hlv2, n, hn, hnid⟩
    · exact Or.inl (Or.inl h1)
    · rcases List.mem_cons.mp hlv2 with rfl | hlv3
      · exact Or.inl (Or.inr ⟨n, hn, hnid⟩)
      · exact Or.inr ⟨lv2, hlv3, n, hn, hnid⟩

/-- C3 amended: run_plan dispatches EVERY node of every level regardless of
failed dependencies (there is no blocked-dependency sweep and no skipping);
each node receives a terminal status from its dispatch, every task is
logged, and is_complete() is true afterwards because every node was
dispatched, not because pending nodes were swept to Failed. -/
theorem C3_every_node_dispatched (work : TaskNode → WorkerReply) (plan : Plan)
    (hnd : NodupIds plan.tasks) (hnc : ¬ hasCycleProp plan.tasks)
    (hwork : ∀ n, (work n).status = .completed ∨ (work n).status = .failed) :
    ∃ out, ExecutorAgent.run_plan work plan = .ok out ∧
      (∀ t ∈ plan.tasks, ∃ e ∈ out.execution_log, e.task_id = t.task_id) ∧
      out.is_complete = true := by
  obtain ⟨g, hg⟩ := (make_ok_iff plan.tasks).mpr hnc
  have hgt := make_ok_tasks hg
  subst hgt
  have hfind : ∀ id, isKeyP plan.tasks id →
      ∃ lv ∈ (TaskGraph.mk plan.tasks).get_execution_order.enum,
        ∃ n ∈ lv.2, n.task_id = id := by
    intro id hkey
    have hcov := kahnLevels_covers plan.tasks hnc id hkey
    obtain ⟨idlvl, hidlvl, hmem⟩ := List.mem_join.mp hcov
    obtain ⟨i, hget⟩ := List.mem_iff_get?.mp hidlvl
    have hgetO : (TaskGraph.mk plan.tasks).get_execution_order.get? i
        = some (idlvl.map (theTask plan.tasks)) := by
      unfold TaskGraph.get_execution_order
      rw [List.get?_map, hget]
      rfl
    have hgetE : (TaskGraph.mk plan.tasks).get_execution_order.enum.get? i
        = some (i, idlvl.map (theTask plan.tasks)) := by
      rw [List.enum_get?, hgetO]
      rfl
    exact ⟨(i, idlvl.map (theTask plan.tasks)), List.get?_mem hgetE,
      theTask plan.tasks id, List.mem_map.mpr ⟨id, hmem, rfl⟩, theTask_id hkey⟩
  unfold ExecutorAgent.run_plan
  rw [hg]
  refine ⟨_, rfl, ?_, ?_⟩
  · intro t ht
    obtain ⟨lv, hlv, n, hn, hnid⟩ := hfind t.task_id (List.mem_map.mpr ⟨t, ht, rfl⟩)
    obtain ⟨_, hcov2⟩ := @runLevels_log work
      ((TaskGraph.mk plan.tasks).get_execution_order.enum) (⟨plan.tasks⟩, [])
    obtain ⟨e, he, heid⟩ := hcov2 lv hlv n hn
    exact ⟨e, he, heid.trans hnid⟩
  · show TaskGraph.is_complete _ = true
    unfold TaskGraph.is_complete
    rw [List.all_eq_true]
    intro t ht
    have hids := @runLevels_ids work
      ((TaskGraph.mk plan.tasks).get_execution_order.enum) (⟨plan.tasks⟩, []) hnd
    have htid : isKeyP plan.tasks t.task_id := by
      unfold isKeyP
      rw [← hids]
      exact List.mem_map.mpr ⟨t, ht, rfl⟩
    obtain ⟨lv, hlv, n, hn, hnid⟩ := hfind t.task_id htid
    have hterm := runLevels_status hwork
      ((TaskGraph.mk plan.tasks).get_execution_order.enum) (⟨plan.tasks⟩, [])
      (fun _ => False) hnd (fun t2 _ hf => absurd hf (by simp)) t ht
      (Or.inr ⟨lv, hlv, n, hn, hnid⟩)
    rcases hterm with h1 | h1
    · simp [h1]
    · simp [h1]

/-- C3 counterexample: node C depends on node B; the worker fails B in
level 0, yet C is dispatched in level 1 (its log entry shows status
"completed"), C ends Completed rather than being left Pending or swept to
Failed with a blocked-dependency error, and is_complete() is true. -/
theorem C3_dependent_of_failed_still_dispatched :
    (ExecutorAgent.run_plan
      (fun node => if node.task_id == "B"
        then ⟨.failed, none, some "boom"⟩
        else ⟨.completed, some "ok", none⟩)
      ⟨"p", "goal", [⟨"B", "", "", [], .researcher, [], .pending, none, none⟩,
        ⟨"C", "", "", ["B"], .researcher, [], .pending, none, none⟩], 0, 1, []⟩).map
      (fun out => (out.execution_log, out.is_complete,
        (out.final_graph.get_task "C").map (fun t => (t.status, t.error))))
    = .ok ([⟨"B", "", "failed", 0, none⟩, ⟨"C", "", "completed", 1, none⟩],
        true, some (.completed, none)) := by
  rfl

/-- Witness for C3 at the concrete plan `w3plan` (Y depends on X) with the
worker `w3work` failing X: the run succeeds, every task appears in the
execution log, and is_complete is true. -/
theorem C3_every_node_dispatched_witness :
    ∃ out, ExecutorAgent.run_plan w3work w3plan = .ok out ∧
      (∀ t ∈ w3plan.tasks, ∃ e ∈ out.execution_log, e.task_id = t.task_id) ∧
      out.is_complete = true :=
  C3_every_node_dispatched w3work w3plan (by decide)
    (fun hc => absurd ((hasCycleB_iff_prop w3plan.tasks).mpr hc) (by decide))
    (fun n => by
      unfold w3work
      by_cases h : (n.task_id == "X") = true
      · rw [if_pos h]
        exact Or.inr rfl
      · rw [if_neg h]
        exact Or.inl rfl)

/-- C4 counterexample: with `timeout_seconds = 0` the guard
`if self.timeout_seconds and ...` is disabled (0 is falsy), so even though
the clock shows 2 seconds elapsed at the pre-iteration check the run does
NOT stop with "timeout": iteration 1's planning and execution run and the
loop terminates with reason "threshold_met" after one iteration. -/
theorem C4_zero_timeout_counterexample :
    (AutonomousLoop.run okWorld (fun n => (n : ℚ)) ⟨5, 0, none, none, some 0⟩
      "exec1" "goal" none ()).map
      (fun r => (r.termination_reason, r.total_iterations, r.status))
    = .ok ("threshold_met", 1, .completed) := by
  rfl

/-- C4 amended: the wall-clock check does precede iteration 1's Planning
phase, but it fires only for a NONZERO configured timeout (0 is falsy in
the guard and disables it).  With `timeout_seconds = some v`, `v ≠ 0`,
at least one iteration budgeted, and the clock already past `v` at the
first check, `run` returns a result with reason "timeout", zero recorded
iterations (planning was never attempted) and status Failed. -/
theorem C4_timeout_guard {σ : Type} (w : LoopWorld σ) (timeFn : Nat → ℚ)
    (cfg : LoopCfg) (execId goal : String) (ictx : Option Ctx)
    (s0 s1 s2 s3 s4 : σ) (rel : Option String) (v : ℚ)
    (hpush : w.pushShortTerm ("Goal: " ++ goal) "action" s0 = .ok s1)
    (hret : w.retrieveRelevant goal 3 s1 = .ok (rel, s2))
    (hto : cfg.timeout_seconds = some v) (hv : v ≠ 0)
    (helapsed : timeFn 2 - timeFn 0 > v)
    (hiter : 1 ≤ cfg.max_iterations)
    (hlog : w.logExecution s2 = .ok s3)
    (hstore : w.storeExperience s3 = .ok s4) :
    AutonomousLoop.run w timeFn cfg execId goal ictx s0 = .ok
      { execution_id := execId
        goal := goal
        iterations := []
        final_result := .noneV
        total_iterations := 0
        total_execution_time := timeFn 3 - timeFn 0
        total_cost := 0
        total_tokens := 0
        status := .failed
        termination_reason := "timeout" } := by
  obtain ⟨m, hm⟩ : ∃ m, cfg.max_iterations = m + 1 :=
    ⟨cfg.max_iterations - 1, by omega⟩
  have htest : timeoutHit cfg.timeout_seconds (timeFn (1 + 1) - timeFn 0) = true := by
    rw [hto]
    simp only [timeoutHit]
    rw [if_neg hv]
    exact decide_eq_true helapsed
  simp only [AutonomousLoop.run, hpush, hret, runBody, hm, runIters, htest, if_true]
  simp only [String.reduceBEq, Bool.false_eq_true, if_false, hlog, hstore]
  rfl

/-- Witness for C4 at the all-succeeding world with `timeout_seconds = 1`
and a clock that has advanced 4 seconds by the first check: the run stops
with reason "timeout" before any planning, status Failed. -/
theorem C4_timeout_guard_witness :
    AutonomousLoop.run okWorld twoClock ⟨5, 0, none, none, some 1⟩
      "e1" "g" none () = .ok
      { execution_id := "e1"
        goal := "g"
        iterations := []
        final_result := .noneV
        total_iterations := 0
        total_execution_time := twoClock 3 - twoClock 0
        total_cost := 0
        total_tokens := 0
        status := .failed
        termination_reason := "timeout" } :=
  C4_timeout_guard okWorld twoClock ⟨5, 0, none, none, some 1⟩ "e1" "g" none
    () () () () () none 1 rfl rfl rfl (by norm_num) (by norm_num [twoClock])
    (by norm_num) rfl rfl

/-- C9 counterexample: the goal logging `push_short_term` and the
`retrieve_relevant_memory` call happen BEFORE the try block, so an
exception raised there propagates out of `run` to the caller instead of
being converted into a Failed result. -/
theorem C9_pre_try_exception_escapes :
    AutonomousLoop.run errWorld (fun _ => (0 : ℚ)) ⟨5, 0, none, none, none⟩
      "e1" "g" none () = .error "boom" := by
  rfl

/-- C9 amended: once the two pre-try calls succeed, `run` never lets an
exception escape: it always returns a result, and when the try block
raises `e` the result has status Failed and termination_reason
`"error: " ++ e`. -/
theorem C9_try_block_catches {σ : Type} (w : LoopWorld σ) (timeFn : Nat → ℚ)
    (cfg : LoopCfg) (execId goal : String) (ictx : Option Ctx) (s0 s1 s2 : σ)
    (rel : Option String)
    (hpush : w.pushShortTerm ("Goal: " ++ goal) "action" s0 = .ok s1)
    (hret : w.retrieveRelevant goal 3 s1 = .ok (rel, s2)) :
    (∃ r, AutonomousLoop.run w timeFn cfg execId goal ictx s0 = .ok r) ∧
    (∀ e, runBody w timeFn cfg execId goal (mkCtx ictx rel) (timeFn 0) s2 = .error e →
      ∃ r, AutonomousLoop.run w timeFn cfg execId goal ictx s0 = .ok r ∧
        r.status = .failed ∧ r.termination_reason = "error: " ++ e.msg) := by
  constructor
  · cases hb : runBody w timeFn cfg execId goal (mkCtx ictx rel) (timeFn 0) s2 with
    | error e =>
      refine ⟨exceptResult timeFn execId goal (timeFn 0) e, ?_⟩
      simp only [AutonomousLoop.run, hpush, hret, hb]
    | ok r =>
      refine ⟨r, ?_⟩
      simp only [AutonomousLoop.run, hpush, hret, hb]
  · intro e he
    refine ⟨exceptResult timeFn execId goal (timeFn 0) e, ?_, rfl, rfl⟩
    simp only [AutonomousLoop.run, hpush, hret, he]

/-- Witness for C9 at the world whose planner raises "LLM down" inside the
try block: the run still returns a result, Failed with reason
"error: LLM down". -/
theorem C9_try_block_catches_witness :
    ∃ r, AutonomousLoop.run midErrWorld (fun n => (n : ℚ)) ⟨5, 0, none, none, none⟩
      "e1" "g" none () = .ok r ∧ r.status = .failed ∧
      r.termination_reason = "error: " ++ "LLM down" :=
  (C9_try_block_catches midErrWorld (fun n => (n : ℚ)) ⟨5, 0, none, none, none⟩
    "e1" "g" none () () () none rfl rfl).2 ⟨"LLM down", (), 3, [], .noneV⟩ rfl
